import Mathlib

/-!
Verification of the path-maintenance core of the mongoose-mpath plugin
(materialized-path tree hierarchy for a document store).

The embedding models ids and paths as lists of characters, the document
collection as a list of records, and each hook (pre-save, pre-remove) as a
function from the collection and the in-memory document to the resulting
collection, following the current implementation (the promise-based plugin:
`mpathUtil`, `preSave`, `preRemove`, `getChildrenTree`, `listToTree`).

The `$regex` filters the plugin issues are built by plain string
interpolation: `'^' + path + '[' + separator + ']'` for descendant queries,
cascades and cascade deletes, and `'^' + rootDoc.path + pathSeparator`
(without the character class) for the scoped children-tree query.  The
embedding gives these patterns their PCRE denotation for the pattern shapes
that actually occur: every pattern character is a literal except `'.'`,
which matches any character, and the single-character class `[c]` matches
exactly `c`.  Patterns containing structural metacharacters other than `'.'`
(such as `*` or `(`) are outside the model.
-/

namespace MongooseMpath

/-- A stored document: its `_id`, its `parent` reference (a nullable id) and
its materialized `path` (`none` models a JS `undefined` path). -/
structure Rec where
  id : List Char
  parent : Option (List Char)
  path : Option (List Char)
deriving DecidableEq

/-- The document collection. -/
abbrev Store := List Rec

/-- `findOne` by `_id` on the collection (first record with the given id). -/
def lookup (store : Store) (i : List Char) : Option Rec :=
  store.find? (fun r => r.id = i)

/-- Matching of the literal-plus-dot part of an interpolated `$regex` pattern
against the front of a string: a pattern character matches a subject
character when it is the wildcard `'.'` or equal to it.  Returns the
remaining subject on success. -/
def litDotMatch : List Char → List Char → Option (List Char)
  | [], s => some s
  | _ :: _, [] => none
  | pc :: ps, c :: cs => if pc = '.' ∨ pc = c then litDotMatch ps cs else none

/-- Denotation of the anchored pattern `'^' + pat + '[' + sep + ']'` used by
`getAllChildren`, the pre-save cascade (`updateChildPaths`) and the DELETE
branch of `preRemove`: the literal/dot part must match a prefix of the
subject and the next character must be the separator (the single-character
class is literal). -/
def classAccepts (sep : Char) (pat s : List Char) : Bool :=
  match litDotMatch pat s with
  | some (c :: _) => c = sep
  | _ => false

/-- Denotation of the anchored pattern `'^' + pat + sep` used by the
children-tree root filter (`filters.path = { $regex: '^' + rootDoc.path +
pathSeparator }`): here the separator is appended without a character
class, so it is itself a wildcard when it is `'.'`. -/
def rawAccepts (sep : Char) (pat s : List Char) : Bool :=
  (litDotMatch (pat ++ [sep]) s).isSome

/-- The result set of `getAllChildren`'s path condition
`{ $regex: '^' + this.path + pathSeparatorRegex }` over a collection. -/
def getAllChildrenMatched (sep : Char) (selfPath : List Char) (store : Store) : Store :=
  store.filter (fun r =>
    match r.path with
    | some p => classAccepts sep selfPath p
    | none => false)

/-- The result set of the scoped children-tree filter
`{ $regex: '^' + rootDoc.path + pathSeparator }` over a collection. -/
def gctRootMatched (sep : Char) (rootPath : List Char) (store : Store) : Store :=
  store.filter (fun r =>
    match r.path with
    | some p => rawAccepts sep rootPath p
    | none => false)

/-- JS `path.split(separator)` for a one-character separator. -/
def splitOnChar (sep : Char) : List Char → List (List Char)
  | [] => [[]]
  | c :: cs =>
    match splitOnChar sep cs with
    | [] => [[]]
    | r :: rs => if c = sep then [] :: r :: rs else (c :: r) :: rs

/-- `mpathUtil.getLevelByPathAndSeparator = (path, separator) =>
path ? path.split(separator).length : 1` — the argument is `none` for an
absent (undefined/null) path; the empty string is also JS-falsy. -/
def getLevelByPathAndSeparator (path : Option (List Char)) (sep : Char) : Nat :=
  match path with
  | none => 1
  | some p => if p = [] then 1 else (splitOnChar sep p).length

theorem splitOnChar_ne_nil (sep : Char) (s : List Char) : splitOnChar sep s ≠ [] := by
  induction s with
  | nil => simp [splitOnChar]
  | cons c cs ih =>
    cases h : splitOnChar sep cs with
    | nil => exact absurd h ih
    | cons r rs =>
      by_cases hc : c = sep <;> simp [splitOnChar, h, hc]

theorem splitOnChar_length (sep : Char) (s : List Char) :
    (splitOnChar sep s).length = s.count sep + 1 := by
  induction s with
  | nil => simp [splitOnChar]
  | cons c cs ih =>
    cases h : splitOnChar sep cs with
    | nil => exact absurd h (splitOnChar_ne_nil sep cs)
    | cons r rs =>
      by_cases hc : c = sep
      · simp only [splitOnChar, h, if_pos hc, List.length_cons, List.count_cons]
        rw [h] at ih
        simp only [List.length_cons] at ih
        simp [hc, ih]
      · simp only [splitOnChar, h, if_neg hc, List.length_cons, List.count_cons]
        rw [h] at ih
        simp only [List.length_cons] at ih
        have hz : (cs.count sep) + (if c == sep then 1 else 0) = cs.count sep := by
          simp [hc]
        rw [hz]
        exact ih

/-- Claim C5: the level function returns 1 for an empty or absent path, and
otherwise the number of separator occurrences in the path plus 1. -/
theorem claim5_level (sep : Char) :
    getLevelByPathAndSeparator none sep = 1 ∧
    getLevelByPathAndSeparator (some []) sep = 1 ∧
    ∀ p : List Char, p ≠ [] →
      getLevelByPathAndSeparator (some p) sep = p.count sep + 1 := by
  refine ⟨rfl, rfl, fun p hp => ?_⟩
  simp [getLevelByPathAndSeparator, hp, splitOnChar_length]

/-- Witness for C5 at the concrete path `"eu#se#sthlm"` with separator `'#'`. -/
theorem claim5_level_witness :
    getLevelByPathAndSeparator (some "eu#se#sthlm".toList) '#' =
      "eu#se#sthlm".toList.count '#' + 1 :=
  (claim5_level '#').2.2 "eu#se#sthlm".toList (by decide)

theorem litDotMatch_append_self (pat r : List Char) :
    litDotMatch pat (pat ++ r) = some r := by
  induction pat with
  | nil => rfl
  | cons pc ps ih => simp [litDotMatch, ih]

theorem litDotMatch_dotFree {pat : List Char} (h : '.' ∉ pat) (s r : List Char) :
    litDotMatch pat s = some r ↔ s = pat ++ r := by
  induction pat generalizing s with
  | nil =>
    cases s <;> simp [litDotMatch]
  | cons pc ps ih =>
    have hpc : pc ≠ '.' := fun he => h (he ▸ List.mem_cons_self pc ps)
    have hps : '.' ∉ ps := fun hm => h (List.mem_cons_of_mem pc hm)
    cases s with
    | nil => simp [litDotMatch]
    | cons c cs =>
      by_cases hc : pc = c
      · subst hc
        simp [litDotMatch, ih hps]
      · have hnot : ¬(pc = '.' ∨ pc = c) := by
          rintro (h1 | h2)
          · exact hpc h1
          · exact hc h2
        simp only [litDotMatch, if_neg hnot, List.cons_append]
        constructor
        · intro he
          exact Option.noConfusion he
        · intro he
          injection he with h1 _
          exact False.elim (hc h1.symm)

theorem classAccepts_of_anchored {sep : Char} {pat s : List Char}
    (h : pat ++ [sep] <+: s) : classAccepts sep pat s = true := by
  obtain ⟨t, ht⟩ := h
  have : s = pat ++ (sep :: t) := by
    rw [← ht]
    simp
  rw [this]
  simp [classAccepts, litDotMatch_append_self]

theorem classAccepts_dotFree {sep : Char} {pat : List Char} (h : '.' ∉ pat)
    (s : List Char) : classAccepts sep pat s = true ↔ pat ++ [sep] <+: s := by
  constructor
  · intro hc
    unfold classAccepts at hc
    cases hm : litDotMatch pat s with
    | none => rw [hm] at hc; exact absurd hc (by simp)
    | some rest =>
      cases rest with
      | nil => rw [hm] at hc; exact absurd hc (by simp)
      | cons c cs =>
        rw [hm] at hc
        simp at hc
        have hs : s = pat ++ (c :: cs) := (litDotMatch_dotFree h s _).mp hm
        refine ⟨cs, ?_⟩
        rw [hs, hc]
        simp
  · exact classAccepts_of_anchored

theorem rawAccepts_dotFree {sep : Char} {pat : List Char} (h : '.' ∉ pat)
    (hsep : sep ≠ '.') (s : List Char) :
    rawAccepts sep pat s = true ↔ pat ++ [sep] <+: s := by
  have hall : '.' ∉ pat ++ [sep] := by
    intro hm
    rcases List.mem_append.mp hm with hm | hm
    · exact h hm
    · simp at hm
      exact hsep hm.symm
  constructor
  · intro hr
    unfold rawAccepts at hr
    cases hm : litDotMatch (pat ++ [sep]) s with
    | none => rw [hm] at hr; exact absurd hr (by simp)
    | some rest =>
      have hs := (litDotMatch_dotFree hall s _).mp hm
      exact ⟨rest, hs.symm⟩
  · intro hpre
    obtain ⟨t, ht⟩ := hpre
    rw [rawAccepts, ← ht, litDotMatch_append_self]
    rfl

/-- Claim C7 counterexample: with separator `'.'`, the scoped children-tree
filter built from the path `"eu.se"` (node id `"se"`) matches the sibling
path `"eu.sex"` (node id `"sex"`), which does not begin with `"eu.se"`
followed by the separator; likewise the `getAllChildren` filter built from
`"eu.se"` matches the unrelated path `"euXse.y"`.  The trailing separator
and the path's separator occurrences are interpolated into the `$regex`
unescaped, so `'.'` acts as a wildcard. -/
theorem claim7_counterexample :
    (gctRootMatched '.' "eu.se".toList
        [⟨"se".toList, some "eu".toList, some "eu.se".toList⟩,
         ⟨"sex".toList, some "eu".toList, some "eu.sex".toList⟩]).map Rec.id =
      ["sex".toList] ∧
    ("eu.se".toList ++ ['.']).isPrefixOf "eu.sex".toList = false ∧
    classAccepts '.' "eu.se".toList "euXse.y".toList = true ∧
    ("eu.se".toList ++ ['.']).isPrefixOf "euXse.y".toList = false := by
  decide

/-- Claim C7 (amended): provided the node's path contains no regex
metacharacter (no `'.'`) and the separator is not `'.'`, every subtree
query derived from the path — the `getAllChildren` filter and the scoped
children-tree filter — matches exactly the records whose path begins with
that path immediately followed by the separator; in particular a node with
id `"ab"` (path `"ab"`) is never matched as a descendant of a node with id
`"a"` (path `"a"`). -/
theorem claim7_amended (sep : Char) (p : List Char) (hp : '.' ∉ p)
    (hsep : sep ≠ '.') (store : Store) (r : Rec) :
    (r ∈ getAllChildrenMatched sep p store ↔
      r ∈ store ∧ ∃ rp, r.path = some rp ∧ p ++ [sep] <+: rp) ∧
    (r ∈ gctRootMatched sep p store ↔
      r ∈ store ∧ ∃ rp, r.path = some rp ∧ p ++ [sep] <+: rp) := by
  constructor
  · rw [getAllChildrenMatched, List.mem_filter]
    refine and_congr_right fun _ => ?_
    cases hrp : r.path with
    | none => simp
    | some rp => simp [classAccepts_dotFree hp]
  · rw [gctRootMatched, List.mem_filter]
    refine and_congr_right fun _ => ?_
    cases hrp : r.path with
    | none => simp
    | some rp => simp [rawAccepts_dotFree hp hsep]

/-- Witness for C7 (amended) with separator `'#'`: the record with path
`"a#b"` is matched as a descendant of the node with path `"a"`, and the
record with path `"ab"` is not. -/
theorem claim7_amended_witness :
    (⟨"b".toList, some "a".toList, some "a#b".toList⟩ : Rec) ∈
      getAllChildrenMatched '#' "a".toList
        [⟨"ab".toList, none, some "ab".toList⟩,
         ⟨"b".toList, some "a".toList, some "a#b".toList⟩] ∧
    (⟨"ab".toList, none, some "ab".toList⟩ : Rec) ∉
      getAllChildrenMatched '#' "a".toList
        [⟨"ab".toList, none, some "ab".toList⟩,
         ⟨"b".toList, some "a".toList, some "a#b".toList⟩] := by
  constructor
  · exact (claim7_amended '#' "a".toList (by decide) (by decide) _ _).1.mpr
      ⟨by simp, "a#b".toList, rfl, ⟨"b".toList, rfl⟩⟩
  · decide

/-- A JS value that can be assigned to the `parent` field: an ObjectId
instance (an object without an own `_id` property), a string id (a JS
primitive), `null`/`undefined`, or a document object possibly carrying an
`_id` field. -/
inductive PVal where
  | oid (i : List Char)
  | str (s : List Char)
  | jsNull
  | doc (idField : Option PVal)

/-- JS `value instanceof Object`: true for ObjectId instances and documents,
false for string primitives and `null`/`undefined`. -/
def PVal.isObjectInstance : PVal → Bool
  | .oid _ => true
  | .doc _ => true
  | _ => false

/-- JS `value._id`: the `_id` field of a document, `undefined` (modelled as
`none`) on every other value. -/
def PVal.idProp : PVal → Option PVal
  | .doc f => f
  | _ => none

/-- JS truthiness of an optional value: `undefined`, `null` and the empty
string are falsy; ObjectIds, nonempty strings and objects are truthy. -/
def jsTruthyVal : Option PVal → Bool
  | none => false
  | some (.str s) => !s.isEmpty
  | some (.oid _) => true
  | some .jsNull => false
  | some (.doc _) => true

/-- The schema's `parent` setter:
`set: (value) => value instanceof Object && value._id ? value._id : value`. -/
def parentSetter (value : PVal) : PVal :=
  if value.isObjectInstance && jsTruthyVal value.idProp then
    value.idProp.getD .jsNull
  else value

/-- An identifier value (ObjectId or string), as opposed to an embedded
document or null. -/
def PVal.isIdValue : PVal → Bool
  | .oid _ => true
  | .str _ => true
  | _ => false

/-- Claim C10: assigning a document that carries a (truthy) id stores that
id; assigning anything else stores the value itself; hence whenever the
assigned value is itself an identifier or a document whose `_id` is a
truthy identifier, the stored parent is an identifier, never an embedded
document. -/
theorem claim10_parent_setter :
    (∀ u : PVal, jsTruthyVal (some u) = true → parentSetter (.doc (some u)) = u) ∧
    (∀ v : PVal, (v.isObjectInstance && jsTruthyVal v.idProp) = false →
      parentSetter v = v) ∧
    (∀ v : PVal,
      (v.isIdValue = true ∨
        ∃ u : PVal, v = .doc (some u) ∧ u.isIdValue = true ∧
          jsTruthyVal (some u) = true) →
      (parentSetter v).isIdValue = true) := by
  refine ⟨fun u hu => ?_, fun v hv => ?_, fun v hv => ?_⟩
  · simp [parentSetter, PVal.isObjectInstance, PVal.idProp, hu]
  · simp [parentSetter, hv]
  · rcases hv with hv | ⟨u, rfl, hu, hut⟩
    · cases v with
      | oid i => simp [parentSetter, PVal.isObjectInstance, PVal.idProp, jsTruthyVal, PVal.isIdValue]
      | str s => simp [parentSetter, PVal.isObjectInstance, PVal.isIdValue]
      | jsNull => exact absurd hv (by simp [PVal.isIdValue])
      | doc f => exact absurd hv (by simp [PVal.isIdValue])
    · simp [parentSetter, PVal.isObjectInstance, PVal.idProp, hut, hu]

/-- Witness for C10: assigning a whole document whose `_id` is the ObjectId
`"adam"` stores exactly that ObjectId, and the stored value is an
identifier. -/
theorem claim10_parent_setter_witness :
    parentSetter (.doc (some (.oid "adam".toList))) = .oid "adam".toList ∧
    (parentSetter (.doc (some (.oid "adam".toList)))).isIdValue = true :=
  ⟨claim10_parent_setter.1 (.oid "adam".toList) (by decide),
   claim10_parent_setter.2.2 _ (Or.inr ⟨.oid "adam".toList, rfl, rfl, rfl⟩)⟩

/-- JS string coercion of a possibly-undefined path: concatenating
`undefined` into a string produces the literal text `"undefined"`. -/
def jsPathStr : Option (List Char) → List Char
  | some p => p
  | none => "undefined".toList

/-- JS truthiness of the `path` field (`undefined` and `""` are falsy). -/
def jsTruthyPath : Option (List Char) → Bool
  | none => false
  | some p => !p.isEmpty

/-- The in-memory mongoose document entering `preSave`: its field values
plus the `isNew` and `isModified('parent')` flags. -/
structure DocState where
  doc : Rec
  isNew : Bool
  modifiedParent : Bool

/-- The store interactions performed by one save, recorded for the frame
claims: the ids looked up via `findOne` and the `pathToReplace` arguments
of the cascades issued via `updateChildPaths`. -/
structure SaveTrace where
  parentLookups : List (List Char)
  cascadeFilters : List (List Char)
deriving DecidableEq

inductive SaveErr where
  | parentNotFound
deriving DecidableEq

/-- One record's fate under `updateChildPaths(pathToReplace, replacementPath)`:
if its path matches `'^' + pathToReplace + '[' + sep + ']'` the path becomes
`replacementPath + path.substr(pathToReplace.length)`, otherwise it is left
alone. -/
def cascadeStep (sep : Char) (pathToReplace replacementPath : List Char) (r : Rec) : Rec :=
  match r.path with
  | some p =>
    if classAccepts sep pathToReplace p then
      { r with path := some (replacementPath ++ p.drop pathToReplace.length) }
    else r
  | none => r

/-- `updateChildPaths`: the cursor yields every matching document of the
collection snapshot and each is updated by its `_id`; with distinct ids
this is the pointwise map of `cascadeStep` over the collection. -/
def updateChildPaths (sep : Char) (store : Store) (pathToReplace replacementPath : List Char) : Store :=
  store.map (cascadeStep sep pathToReplace replacementPath)

/-- Mongoose's write of the document itself after the hook: replace the
record carrying the same `_id`, or append the document if its id is new. -/
def upsert (store : Store) (rec : Rec) : Store :=
  if store.any (fun r => r.id = rec.id) then
    store.map (fun r => if r.id = rec.id then rec else r)
  else store ++ [rec]

/-- The root branch of `preSave` (JS-falsy `parent`): the path becomes the
id and, when the parent field was modified, the cascade runs from the old
path (stringified, hence the literal `"undefined"` for a new document). -/
def preSaveRoot (sep : Char) (store : Store) (d : DocState) : Store × SaveTrace :=
  let oldPath := jsPathStr d.doc.path
  let newPath := d.doc.id
  let doc' := { d.doc with path := some newPath }
  if d.modifiedParent then
    (upsert (updateChildPaths sep store oldPath newPath) doc', ⟨[], [oldPath]⟩)
  else
    (upsert store doc', ⟨[], []⟩)

/-- The parent branch of `preSave`: `findOne` the parent document — a
missing parent makes the promise chain reject (reading `parentDoc.path`
throws) and the save fail.  Otherwise the new path is
`parentDoc.path + separator + id` and, when the parent field was modified,
`updateChildPaths(oldPath, newPath)` rewrites the old subtree before the
document itself is written. -/
def preSaveWithParent (sep : Char) (store : Store) (d : DocState) (p : List Char) :
    Except SaveErr (Store × SaveTrace) :=
  match lookup store p with
  | none => .error .parentNotFound
  | some parentDoc =>
    let oldPath := jsPathStr d.doc.path
    let newPath := jsPathStr parentDoc.path ++ sep :: d.doc.id
    let doc' := { d.doc with path := some newPath }
    if d.modifiedParent then
      .ok (upsert (updateChildPaths sep store oldPath newPath) doc', ⟨[p], [oldPath]⟩)
    else
      .ok (upsert store doc', ⟨[p], []⟩)

/-- `preSave` followed by the write of the document: a plain write when the
document is neither new nor has a modified parent; otherwise the path is
recomputed from the parent (JS-truthy `parent`) or set to the id (root). -/
def applySave (sep : Char) (store : Store) (d : DocState) : Except SaveErr (Store × SaveTrace) :=
  if !(d.isNew || d.modifiedParent) then
    .ok (upsert store d.doc, ⟨[], []⟩)
  else
    match d.doc.parent with
    | some p => if p.isEmpty then .ok (preSaveRoot sep store d) else preSaveWithParent sep store d p
    | none => .ok (preSaveRoot sep store d)

theorem cascadeStep_id (sep : Char) (a b : List Char) (r : Rec) :
    (cascadeStep sep a b r).id = r.id := by
  unfold cascadeStep
  cases r.path with
  | none => rfl
  | some p => by_cases h : classAccepts sep a p = true <;> simp [h]

theorem lookup_map_idPreserving {f : Rec → Rec} (hf : ∀ r, (f r).id = r.id)
    (store : Store) (i : List Char) :
    lookup (store.map f) i = (lookup store i).map f := by
  induction store with
  | nil => rfl
  | cons y ys ih =>
    rw [List.map_cons]
    by_cases h : y.id = i
    · rw [lookup, List.find?_cons_of_pos _ (by simp [hf, h]),
        lookup, List.find?_cons_of_pos _ (by simp [h])]
      rfl
    · rw [lookup, List.find?_cons_of_neg _ (by simp [hf, h]),
        lookup, List.find?_cons_of_neg _ (by simp [h])]
      exact ih

theorem lookup_of_mem_nodup {store : Store} {r : Rec}
    (hnd : store.Pairwise (fun a b => a.id ≠ b.id)) (hm : r ∈ store) :
    lookup store r.id = some r := by
  induction store with
  | nil => cases hm
  | cons y ys ih =>
    rcases List.mem_cons.mp hm with rfl | hm'
    · rw [lookup, List.find?_cons_of_pos _ (by simp)]
    · have hy : y.id ≠ r.id := (List.pairwise_cons.mp hnd).1 r hm'
      rw [lookup, List.find?_cons_of_neg _ (by simp [hy])]
      exact ih (List.pairwise_cons.mp hnd).2 hm'

theorem mem_nodup_id_eq {store : Store} {a b : Rec}
    (hnd : store.Pairwise (fun x y => x.id ≠ y.id)) (ha : a ∈ store)
    (hb : b ∈ store) (h : a.id = b.id) : a = b := by
  induction store with
  | nil => cases ha
  | cons y ys ih =>
    rcases List.mem_cons.mp ha with rfl | ha' <;>
      rcases List.mem_cons.mp hb with rfl | hb'
    · rfl
    · exact absurd h ((List.pairwise_cons.mp hnd).1 b hb')
    · exact absurd h.symm ((List.pairwise_cons.mp hnd).1 a ha')
    · exact ih (List.pairwise_cons.mp hnd).2 ha' hb'

theorem lookup_upsert_self (store : Store) (rec : Rec) :
    lookup (upsert store rec) rec.id = some rec := by
  unfold upsert
  by_cases h : store.any (fun r => r.id = rec.id)
  · rw [if_pos h]
    revert h
    induction store with
    | nil =>
      intro h
      exact absurd h (by simp)
    | cons y ys ih =>
      intro h
      rw [List.map_cons]
      by_cases hy : y.id = rec.id
      · rw [if_pos hy, lookup, List.find?_cons_of_pos _ (by simp)]
      · rw [if_neg hy, lookup, List.find?_cons_of_neg _ (by simp [hy])]
        refine ih ?_
        rcases List.any_eq_true.mp h with ⟨x, hx, hxe⟩
        rcases List.mem_cons.mp hx with rfl | hx'
        · exact absurd (of_decide_eq_true hxe) hy
        · exact List.any_eq_true.mpr ⟨x, hx', hxe⟩
  · rw [if_neg h]
    have hnone : List.find? (fun r => r.id = rec.id) store = none := by
      rw [List.find?_eq_none]
      intro x hx
      simp only [decide_eq_true_eq]
      intro hxe
      exact h (List.any_eq_true.mpr ⟨x, hx, decide_eq_true hxe⟩)
    rw [lookup, List.find?_append, hnone]
    simp [List.find?]

theorem lookup_mapReplace_ne (store : Store) (rec : Rec) {i : List Char}
    (h : i ≠ rec.id) :
    lookup (store.map (fun r => if r.id = rec.id then rec else r)) i =
      lookup store i := by
  induction store with
  | nil => rfl
  | cons y ys ih =>
    have hrec : ¬ rec.id = i := fun he => h he.symm
    by_cases hy : y.id = rec.id
    · have hyn : ¬ y.id = i := fun he => hrec (hy.symm.trans he)
      rw [List.map_cons, if_pos hy, lookup, List.find?_cons_of_neg _ (by simp [hrec]),
        lookup, List.find?_cons_of_neg _ (by simp [hyn])]
      exact ih
    · rw [List.map_cons, if_neg hy]
      by_cases hyi : y.id = i
      · rw [lookup, List.find?_cons_of_pos _ (by simp [hyi]),
          lookup, List.find?_cons_of_pos _ (by simp [hyi])]
      · rw [lookup, List.find?_cons_of_neg _ (by simp [hyi]),
          lookup, List.find?_cons_of_neg _ (by simp [hyi])]
        exact ih

theorem lookup_upsert_ne (store : Store) (rec : Rec) {i : List Char}
    (h : i ≠ rec.id) : lookup (upsert store rec) i = lookup store i := by
  unfold upsert
  by_cases ha : store.any (fun r => r.id = rec.id)
  · rw [if_pos ha]
    exact lookup_mapReplace_ne store rec h
  · rw [if_neg ha]
    have hone : List.find? (fun r => decide (r.id = i)) [rec] = none := by
      have : ¬ rec.id = i := fun he => h he.symm
      simp [List.find?, this]
    rw [lookup, List.find?_append, hone, lookup]
    cases List.find? (fun r => decide (r.id = i)) store <;> rfl

/-- Claim C6: saving an existing document whose parent field has not been
modified takes the early-return branch of `preSave`: no parent lookup and
no cascade are issued (empty trace), the document is written back with its
path unchanged, and every other record's lookup is unaffected. -/
theorem claim6_noop_save (sep : Char) (store : Store) (r : Rec) :
    applySave sep store ⟨r, false, false⟩ = .ok (upsert store r, ⟨[], []⟩) ∧
    lookup (upsert store r) r.id = some r ∧
    ∀ i, i ≠ r.id → lookup (upsert store r) i = lookup store i := by
  refine ⟨rfl, lookup_upsert_self store r, fun i hi => lookup_upsert_ne store r hi⟩

/-- Witness for C6: a no-op save of `sweden` in a concrete two-record
collection keeps its path `"eu#se"` and leaves `europe` untouched. -/
theorem claim6_noop_save_witness :
    applySave '#'
        [⟨"eu".toList, none, some "eu".toList⟩,
         ⟨"se".toList, some "eu".toList, some "eu#se".toList⟩]
        ⟨⟨"se".toList, some "eu".toList, some "eu#se".toList⟩, false, false⟩ =
      .ok (upsert
        [⟨"eu".toList, none, some "eu".toList⟩,
         ⟨"se".toList, some "eu".toList, some "eu#se".toList⟩]
        ⟨"se".toList, some "eu".toList, some "eu#se".toList⟩, ⟨[], []⟩) ∧
    lookup (upsert
        [⟨"eu".toList, none, some "eu".toList⟩,
         ⟨"se".toList, some "eu".toList, some "eu#se".toList⟩]
        ⟨"se".toList, some "eu".toList, some "eu#se".toList⟩) "eu".toList =
      lookup
        [⟨"eu".toList, none, some "eu".toList⟩,
         ⟨"se".toList, some "eu".toList, some "eu#se".toList⟩] "eu".toList :=
  ⟨(claim6_noop_save '#' _ _).1,
   (claim6_noop_save '#' _ _).2.2 "eu".toList (by decide)⟩

theorem cascadeStep_of_anchored {sep : Char} {oldPath rest : List Char}
    (newPath : List Char) {D : Rec} (hDp : D.path = some (oldPath ++ sep :: rest)) :
    cascadeStep sep oldPath newPath D = { D with path := some (newPath ++ sep :: rest) } := by
  have hacc : classAccepts sep oldPath (oldPath ++ sep :: rest) = true :=
    classAccepts_of_anchored ⟨rest, by simp⟩
  rw [cascadeStep, hDp]
  simp only [hacc, if_true]
  rw [List.drop_left' rfl]

/-- The common shape shared by the three cascading branches of a reparent
save: the store after the cascade and the write of the saved document.
Every record whose path extended `oldPath` across a separator boundary is
rewritten with the new path, and the saved document itself carries the new
path. -/
theorem cascade_upsert_spec (sep : Char) (store : Store)
    (hnd : store.Pairwise (fun a b => a.id ≠ b.id))
    (oldPath newPath : List Char) (doc' : Rec)
    {xrec : Rec} (hx : xrec ∈ store) (hxp : xrec.path = some oldPath)
    (hid : doc'.id = xrec.id) (_hp : doc'.path = some newPath)
    {D : Rec} (hD : D ∈ store) {rest : List Char}
    (hDp : D.path = some (oldPath ++ sep :: rest)) :
    lookup (upsert (updateChildPaths sep store oldPath newPath) doc') xrec.id = some doc' ∧
    lookup (upsert (updateChildPaths sep store oldPath newPath) doc') D.id =
      some { D with path := some (newPath ++ sep :: rest) } := by
  have hne : D.id ≠ xrec.id := by
    intro he
    have : D = xrec := mem_nodup_id_eq hnd hD hx he
    rw [this, hxp] at hDp
    have := congrArg (fun o => (Option.getD o []).length) hDp
    simp at this
  constructor
  · rw [← hid, lookup_upsert_self]
  · rw [lookup_upsert_ne _ _ (hid ▸ hne),
      updateChildPaths, lookup_map_idPreserving (cascadeStep_id sep oldPath newPath),
      lookup_of_mem_nodup hnd hD, Option.map_some', cascadeStep_of_anchored newPath hDp]

/-- Claim C2: after saving an existing node X with a modified parent (a
reparent), every record D whose pre-move path matched the separator-anchored
prefix filter of X's old path is rewritten so that its persisted path is
X's new persisted path followed by the unchanged remainder of its old path
(the part that followed X's old path). -/
theorem claim2_reparent_rewrites (sep : Char) (store : Store) (xrec : Rec)
    (pnew : Option (List Char)) (store' : Store) (tr : SaveTrace)
    (hnd : store.Pairwise (fun a b => a.id ≠ b.id))
    (hx : xrec ∈ store)
    (oldPath : List Char) (hxp : xrec.path = some oldPath)
    (hsave : applySave sep store ⟨{ xrec with parent := pnew }, false, true⟩ =
      .ok (store', tr))
    (D : Rec) (hD : D ∈ store) (rest : List Char)
    (hDp : D.path = some (oldPath ++ sep :: rest)) :
    ∃ xrec', lookup store' xrec.id = some xrec' ∧
    ∃ newPath, xrec'.path = some newPath ∧
      lookup store' D.id = some { D with path := some (newPath ++ sep :: rest) } := by
  rw [applySave] at hsave
  simp only [Bool.false_or, Bool.not_true, Bool.false_eq_true, if_false] at hsave
  have hold : jsPathStr ({ xrec with parent := pnew } : Rec).path = oldPath := by
    simp [jsPathStr, hxp]
  cases hpn : pnew with
  | none =>
    rw [hpn] at hsave
    simp only [preSaveRoot, hold, if_true, Except.ok.injEq, Prod.mk.injEq] at hsave
    obtain ⟨hst, -⟩ := hsave
    subst hst
    have hspec := cascade_upsert_spec sep store hnd oldPath xrec.id
      ⟨xrec.id, none, some xrec.id⟩ hx hxp rfl rfl hD hDp
    exact ⟨_, hspec.1, xrec.id, rfl, hspec.2⟩
  | some p =>
    rw [hpn] at hsave
    by_cases hpe : p.isEmpty
    · simp only [hpe, if_true, preSaveRoot, hold, Except.ok.injEq, Prod.mk.injEq] at hsave
      obtain ⟨hst, -⟩ := hsave
      subst hst
      have hspec := cascade_upsert_spec sep store hnd oldPath xrec.id
        ⟨xrec.id, some p, some xrec.id⟩ hx hxp rfl rfl hD hDp
      exact ⟨_, hspec.1, xrec.id, rfl, hspec.2⟩
    · simp only [hpe, if_false, preSaveWithParent] at hsave
      cases hlp : lookup store p with
      | none =>
        rw [hlp] at hsave
        exact absurd hsave (by simp)
      | some parentDoc =>
        rw [hlp] at hsave
        simp only [hold, Bool.false_eq_true, if_false, if_true, Except.ok.injEq,
          Prod.mk.injEq] at hsave
        obtain ⟨hst, -⟩ := hsave
        subst hst
        have hspec := cascade_upsert_spec sep store hnd oldPath
          (jsPathStr parentDoc.path ++ sep :: xrec.id)
          ⟨xrec.id, some p, some (jsPathStr parentDoc.path ++ sep :: xrec.id)⟩
          hx hxp rfl rfl hD hDp
        exact ⟨_, hspec.1, jsPathStr parentDoc.path ++ sep :: xrec.id, rfl, hspec.2⟩

/-- Witness for C2: reparenting `sweden` (path `"eu#se"`) under `africa`
rewrites `stockholm`'s path from `"eu#se#sthlm"` to `"af#se#sthlm"`. -/
theorem claim2_reparent_rewrites_witness :
    ∃ xrec', lookup
      [⟨"eu".toList, none, some "eu".toList⟩,
       ⟨"af".toList, none, some "af".toList⟩,
       ⟨"se".toList, some "af".toList, some "af#se".toList⟩,
       ⟨"sthlm".toList, some "se".toList, some "af#se#sthlm".toList⟩]
      "se".toList = some xrec' ∧
    ∃ newPath, xrec'.path = some newPath ∧
      lookup
        [⟨"eu".toList, none, some "eu".toList⟩,
         ⟨"af".toList, none, some "af".toList⟩,
         ⟨"se".toList, some "af".toList, some "af#se".toList⟩,
         ⟨"sthlm".toList, some "se".toList, some "af#se#sthlm".toList⟩]
        "sthlm".toList =
        some ⟨"sthlm".toList, some "se".toList, some (newPath ++ '#' :: "sthlm".toList)⟩ :=
  claim2_reparent_rewrites '#'
    [⟨"eu".toList, none, some "eu".toList⟩,
     ⟨"af".toList, none, some "af".toList⟩,
     ⟨"se".toList, some "eu".toList, some "eu#se".toList⟩,
     ⟨"sthlm".toList, some "se".toList, some "eu#se#sthlm".toList⟩]
    ⟨"se".toList, some "eu".toList, some "eu#se".toList⟩
    (some "af".toList)
    [⟨"eu".toList, none, some "eu".toList⟩,
     ⟨"af".toList, none, some "af".toList⟩,
     ⟨"se".toList, some "af".toList, some "af#se".toList⟩,
     ⟨"sthlm".toList, some "se".toList, some "af#se#sthlm".toList⟩]
    ⟨["af".toList], ["eu#se".toList]⟩
    (by decide) (by decide) "eu#se".toList rfl rfl
    ⟨"sthlm".toList, some "se".toList, some "eu#se#sthlm".toList⟩
    (by decide) "sthlm".toList (by decide)

/-- The `onDelete` plugin option. -/
inductive OnDelete where
  | DELETE
  | REPARENT
deriving DecidableEq

/-- Removal of the document itself (`deleteOne` by `_id`). -/
def removeById (store : Store) (i : List Char) : Store :=
  store.filter (fun r => ¬ r.id = i)

/-- `deleteMany({ path: { $regex: '^' + this.path + pathSeparatorRegex } })`:
every record whose path matches the interpolated pattern is removed. -/
def deleteSubtree (sep : Char) (store : Store) (selfPath : List Char) : Store :=
  store.filter (fun r =>
    match r.path with
    | some p => !(classAccepts sep selfPath p)
    | none => true)

/-- `preRemove` followed by the removal of the document itself: no side
effects when the path is JS-falsy; under `DELETE` the subtree filter is
deleted in one operation; under `REPARENT` each immediate child (cursor
snapshot over `{ parent: this._id }`) gets `parent = parentOfDeletedDoc`
and is saved through the normal save path (which re-runs `preSave` and its
cascade), and the document is then removed. -/
def applyRemove (sep : Char) (mode : OnDelete) (store : Store) (d : Rec) :
    Except SaveErr Store :=
  if !(jsTruthyPath d.path) then .ok (removeById store d.id)
  else
    match mode with
    | .DELETE => .ok (removeById (deleteSubtree sep store (jsPathStr d.path)) d.id)
    | .REPARENT =>
      (((store.filter (fun r => r.parent = some d.id)).foldlM
          (fun st c =>
            (applySave sep st ⟨{ c with parent := d.parent }, false, true⟩).map Prod.fst)
          store).map
        (fun st => removeById st d.id))

theorem lookup_filter_none {store : Store} {pred : Rec → Bool} {i : List Char}
    (h : ∀ y ∈ store, y.id = i → pred y = false) :
    lookup (store.filter pred) i = none := by
  rw [lookup, List.find?_eq_none]
  intro x hx
  simp only [decide_eq_true_eq]
  intro hxe
  obtain ⟨hxs, hxp⟩ := List.mem_filter.mp hx
  rw [h x hxs hxe] at hxp
  cases hxp

theorem lookup_filter_mem {store : Store}
    (hnd : store.Pairwise (fun a b => a.id ≠ b.id)) {r : Rec} (hm : r ∈ store)
    {pred : Rec → Bool} (hp : pred r = true) :
    lookup (store.filter pred) r.id = some r := by
  induction store with
  | nil => cases hm
  | cons y ys ih =>
    rcases List.mem_cons.mp hm with rfl | hm'
    · rw [List.filter_cons_of_pos hp, lookup, List.find?_cons_of_pos _ (by simp)]
    · have hy : y.id ≠ r.id := (List.pairwise_cons.mp hnd).1 r hm'
      cases hpy : pred y with
      | true =>
        rw [List.filter_cons_of_pos hpy, lookup, List.find?_cons_of_neg _ (by simp [hy])]
        exact ih (List.pairwise_cons.mp hnd).2 hm'
      | false =>
        rw [List.filter_cons_of_neg (by simp [hpy])]
        exact ih (List.pairwise_cons.mp hnd).2 hm'

/-- Claim C4 counterexample (separator `'#'`): deleting the node with path
`"a.b"` under DELETE mode also removes the unrelated record with path
`"aXb#q"`, whose path does not begin with `"a.b"` followed by the
separator — the `'.'` in the deleted node's path is interpolated into the
`$regex` unescaped and matches the `'X'`. -/
theorem claim4_counterexample :
    applyRemove '#' .DELETE
        [⟨"a.b".toList, none, some "a.b".toList⟩,
         ⟨"aXb".toList, none, some "aXb".toList⟩,
         ⟨"q".toList, some "aXb".toList, some "aXb#q".toList⟩]
        ⟨"a.b".toList, none, some "a.b".toList⟩ =
      .ok [⟨"aXb".toList, none, some "aXb".toList⟩] ∧
    ("a.b".toList ++ ['#']).isPrefixOf "aXb#q".toList = false ∧
    "q".toList ≠ "a.b".toList := by
  refine ⟨rfl, by decide, by decide⟩

/-- Claim C4 (amended): provided the deleted node's (non-empty) path
contains no regex metacharacter (no `'.'`), deleting it under DELETE mode
removes exactly the node itself and the records whose path begins with the
node's path immediately followed by the separator, and every record
outside that set is unchanged. -/
theorem claim4_amended (sep : Char) (store : Store)
    (hnd : store.Pairwise (fun a b => a.id ≠ b.id))
    (X : Rec) (Xp : List Char) (hXp : X.path = some Xp) (hXt : Xp ≠ [])
    (hdot : '.' ∉ Xp) (store' : Store)
    (hrem : applyRemove sep .DELETE store X = .ok store') :
    (∀ r ∈ store,
      (r.id = X.id ∨ ∃ rp, r.path = some rp ∧ Xp ++ [sep] <+: rp) →
      lookup store' r.id = none) ∧
    (∀ r ∈ store, r.id ≠ X.id →
      (∀ rp, r.path = some rp → ¬ (Xp ++ [sep] <+: rp)) →
      lookup store' r.id = some r) := by
  have htr : jsTruthyPath X.path = true := by
    simp [jsTruthyPath, hXp, hXt]
  rw [applyRemove, htr] at hrem
  simp only [Bool.not_true, Bool.false_eq_true, if_false, Except.ok.injEq] at hrem
  have hjs : jsPathStr X.path = Xp := by simp [jsPathStr, hXp]
  rw [hjs] at hrem
  subst hrem
  constructor
  · intro r hr hcase
    rw [removeById, deleteSubtree]
    rcases hcase with hid | ⟨rp, hrp, hpre⟩
    · refine lookup_filter_none fun y hy hyi => ?_
      obtain ⟨hys, -⟩ := List.mem_filter.mp hy
      simp [hyi, hid]
    · have hacc : classAccepts sep Xp rp = true := classAccepts_of_anchored hpre
      refine lookup_filter_none fun y hy hyi => ?_
      obtain ⟨hys, hyk⟩ := List.mem_filter.mp hy
      have hyr : y = r := mem_nodup_id_eq hnd hys hr hyi
      subst hyr
      rw [hrp] at hyk
      simp only [hacc, Bool.not_true] at hyk
      exact absurd hyk (by simp)
  · intro r hr hrid hrp
    rw [removeById, deleteSubtree]
    have hkeep : (match r.path with
        | some p => !(classAccepts sep Xp p)
        | none => true) = true := by
      cases hrpath : r.path with
      | none => rfl
      | some p =>
        simp only [Bool.not_eq_true']
        rw [← Bool.not_eq_true]
        intro hacc
        exact hrp p hrpath ((classAccepts_dotFree hdot p).mp hacc)
    have hnd2 : (deleteSubtree sep store Xp).Pairwise (fun a b => a.id ≠ b.id) :=
      List.Pairwise.sublist (List.filter_sublist store) hnd
    have hm2 : r ∈ deleteSubtree sep store Xp :=
      List.mem_filter.mpr ⟨hr, hkeep⟩
    rw [← deleteSubtree]
    exact lookup_filter_mem hnd2 hm2 (by simp [hrid])

/-- Witness for C4 (amended): deleting `sweden` (path `"eu#se"`) under
DELETE mode removes `globe` (path `"eu#se#sthlm#globe"`), and leaves
`norway` (path `"eu#no"`) untouched. -/
theorem claim4_amended_witness :
    lookup
      [⟨"af".toList, none, some "af".toList⟩,
       ⟨"eu".toList, none, some "eu".toList⟩,
       ⟨"no".toList, some "eu".toList, some "eu#no".toList⟩]
      "globe".toList = none ∧
    lookup
      [⟨"af".toList, none, some "af".toList⟩,
       ⟨"eu".toList, none, some "eu".toList⟩,
       ⟨"no".toList, some "eu".toList, some "eu#no".toList⟩]
      "no".toList = some ⟨"no".toList, some "eu".toList, some "eu#no".toList⟩ := by
  have H := claim4_amended '#'
    [⟨"af".toList, none, some "af".toList⟩,
     ⟨"eu".toList, none, some "eu".toList⟩,
     ⟨"no".toList, some "eu".toList, some "eu#no".toList⟩,
     ⟨"se".toList, some "eu".toList, some "eu#se".toList⟩,
     ⟨"sthlm".toList, some "se".toList, some "eu#se#sthlm".toList⟩,
     ⟨"globe".toList, some "sthlm".toList, some "eu#se#sthlm#globe".toList⟩]
    (by decide)
    ⟨"se".toList, some "eu".toList, some "eu#se".toList⟩
    "eu#se".toList rfl (by decide) (by decide)
    [⟨"af".toList, none, some "af".toList⟩,
     ⟨"eu".toList, none, some "eu".toList⟩,
     ⟨"no".toList, some "eu".toList, some "eu#no".toList⟩]
    rfl
  refine ⟨H.1 ⟨"globe".toList, some "sthlm".toList, some "eu#se#sthlm#globe".toList⟩
      (by decide) (Or.inr ⟨"eu#se#sthlm#globe".toList, rfl, "sthlm#globe".toList, rfl⟩),
    H.2 ⟨"no".toList, some "eu".toList, some "eu#no".toList⟩ (by decide) (by decide)
      (fun rp hrp hpre => ?_)⟩
  cases hrp
  exact absurd hpre.length_le (by decide)

/-- Claim C1 counterexample: reparenting `B` (path `"A#B"`) under its own
descendant `C` (path `"A#B#C"`) succeeds — no cycle detection — and leaves
`B`'s persisted path equal to `C`'s path as it was at lookup time
(`"A#B#C#B"`), while the cascade then rewrites `C`'s persisted path to
`"A#B#C#B#C"`; afterwards `B.path` is not `C.path + separator + B.id`, so
the composition rule fails in the resulting store. -/
theorem claim1_counterexample :
    applySave '#'
        [⟨"A".toList, none, some "A".toList⟩,
         ⟨"B".toList, some "A".toList, some "A#B".toList⟩,
         ⟨"C".toList, some "B".toList, some "A#B#C".toList⟩]
        ⟨⟨"B".toList, some "C".toList, some "A#B".toList⟩, false, true⟩ =
      .ok ([⟨"A".toList, none, some "A".toList⟩,
            ⟨"B".toList, some "C".toList, some "A#B#C#B".toList⟩,
            ⟨"C".toList, some "B".toList, some "A#B#C#B#C".toList⟩],
           ⟨["C".toList], ["A#B".toList]⟩) ∧
    lookup [⟨"A".toList, none, some "A".toList⟩,
            ⟨"B".toList, some "C".toList, some "A#B#C#B".toList⟩,
            ⟨"C".toList, some "B".toList, some "A#B#C#B#C".toList⟩] "B".toList =
      some ⟨"B".toList, some "C".toList, some "A#B#C#B".toList⟩ ∧
    lookup [⟨"A".toList, none, some "A".toList⟩,
            ⟨"B".toList, some "C".toList, some "A#B#C#B".toList⟩,
            ⟨"C".toList, some "B".toList, some "A#B#C#B#C".toList⟩] "C".toList =
      some ⟨"C".toList, some "B".toList, some "A#B#C#B#C".toList⟩ ∧
    "A#B#C#B".toList ≠ "A#B#C#B#C".toList ++ '#' :: "B".toList := by
  exact ⟨rfl, rfl, rfl, by decide⟩

/-- Well-formedness of a collection: distinct ids, nonempty separator-free
ids, and the materialized-path composition invariant (a root's path is its
id; a child's path is its parent's path, the separator and its id). -/
def WFStore (sep : Char) (store : Store) : Prop :=
  store.Pairwise (fun a b => a.id ≠ b.id) ∧
  (∀ r ∈ store, r.id ≠ [] ∧ sep ∉ r.id) ∧
  (∀ r ∈ store,
    match r.parent with
    | none => r.path = some r.id
    | some p => ∃ q ∈ store, q.id = p ∧
        ∃ qp, q.path = some qp ∧ r.path = some (qp ++ sep :: r.id))

theorem WFStore.path_some {sep : Char} {store : Store} (h : WFStore sep store)
    {r : Rec} (hr : r ∈ store) : ∃ rp, r.path = some rp := by
  have hc := h.2.2 r hr
  cases hpar : r.parent with
  | none =>
    rw [hpar] at hc
    exact ⟨r.id, hc⟩
  | some p =>
    rw [hpar] at hc
    obtain ⟨q, -, -, qp, -, hcomp⟩ := hc
    exact ⟨qp ++ sep :: r.id, hcomp⟩

theorem cascadeStep_not_matched {sep : Char} {oldPath newPath : List Char}
    {r : Rec} (h : ∀ rp, r.path = some rp → classAccepts sep oldPath rp = false) :
    cascadeStep sep oldPath newPath r = r := by
  rw [cascadeStep]
  cases hrp : r.path with
  | none => rfl
  | some rp => simp [h rp hrp]

/-- Claim C1 (amended): over a well-formed collection, a successful save
leaves the saved node's persisted path equal to its persisted parent's path
followed by the separator and its id (or to its own id for a root),
provided the save does not make the cascade rewrite the new parent's own
record — in particular the new parent is not the node itself or one of its
pre-save descendants (the code performs no cycle detection).  The document
entering the save is assumed coherent with the store: a fresh id when
`isNew`, otherwise the stored record's path (and, when the parent is
unmodified, its parent); an assigned parent id is nonempty. -/
theorem claim1_amended (sep : Char) (store : Store) (d : DocState)
    (store' : Store) (tr : SaveTrace)
    (hwf : WFStore sep store)
    (hfresh : d.isNew = true → lookup store d.doc.id = none)
    (hcoh : d.isNew = false → ∃ r0 ∈ store, r0.id = d.doc.id ∧
      r0.path = d.doc.path ∧ (d.modifiedParent = false → r0.parent = d.doc.parent))
    (hpe : ∀ p, d.doc.parent = some p → p ≠ [])
    (hself : d.doc.parent ≠ some d.doc.id)
    (hsafe : ∀ p prec pp, d.doc.parent = some p → lookup store p = some prec →
      prec.path = some pp → classAccepts sep (jsPathStr d.doc.path) pp = false)
    (hsave : applySave sep store d = .ok (store', tr)) :
    ∃ rec', lookup store' d.doc.id = some rec' ∧
      (d.doc.parent = none → rec'.path = some d.doc.id) ∧
      (∀ p, d.doc.parent = some p →
        ∃ prec', lookup store' p = some prec' ∧
          ∃ pp, prec'.path = some pp ∧ rec'.path = some (pp ++ sep :: d.doc.id)) := by
  by_cases hreq : (d.isNew || d.modifiedParent) = true
  · rw [applySave, hreq] at hsave
    simp only [Bool.not_true, Bool.false_eq_true, if_false] at hsave
    cases hp : d.doc.parent with
    | none =>
      rw [hp] at hsave
      rw [preSaveRoot] at hsave
      cases hm : d.modifiedParent with
      | true =>
        rw [hm] at hsave
        simp only [if_true, Except.ok.injEq, Prod.mk.injEq] at hsave
        obtain ⟨hst, -⟩ := hsave
        subst hst
        exact ⟨{ d.doc with path := some d.doc.id },
          lookup_upsert_self _ _, fun _ => rfl, fun p hpp => Option.noConfusion hpp⟩
      | false =>
        rw [hm] at hsave
        simp only [Bool.false_eq_true, if_false, Except.ok.injEq, Prod.mk.injEq] at hsave
        obtain ⟨hst, -⟩ := hsave
        subst hst
        exact ⟨{ d.doc with path := some d.doc.id },
          lookup_upsert_self _ _, fun _ => rfl, fun p hpp => Option.noConfusion hpp⟩
    | some p =>
      rw [hp] at hsave
      have hpef : ¬ p.isEmpty = true := by
        simp only [List.isEmpty_iff]
        exact hpe p hp
      simp only [if_neg hpef] at hsave
      rw [preSaveWithParent] at hsave
      cases hlp : lookup store p with
      | none =>
        rw [hlp] at hsave
        exact absurd hsave (by simp)
      | some prec =>
        rw [hlp] at hsave
        have hprecMem : prec ∈ store := by
          have := List.mem_of_find?_eq_some hlp
          exact this
        obtain ⟨pp, hppEq⟩ := hwf.path_some hprecMem
        have hpne : p ≠ d.doc.id := by
          cases hn : d.isNew with
          | true =>
            intro he
            rw [he, hfresh hn] at hlp
            cases hlp
          | false =>
            intro he
            exact hself (he ▸ hp)
        cases hm : d.modifiedParent with
        | true =>
          rw [hm] at hsave
          simp only [if_true, Except.ok.injEq, Prod.mk.injEq] at hsave
          obtain ⟨hst, -⟩ := hsave
          subst hst
          refine ⟨{ d.doc with path := some (jsPathStr prec.path ++ sep :: d.doc.id) },
            lookup_upsert_self _ _, fun hc => Option.noConfusion hc,
            fun p' hp' => ?_⟩
          injection hp' with hp''
          subst hp''
          refine ⟨prec, ?_, pp, hppEq, ?_⟩
          · rw [lookup_upsert_ne
                (updateChildPaths sep store (jsPathStr d.doc.path)
                  (jsPathStr prec.path ++ sep :: d.doc.id))
                ⟨d.doc.id, d.doc.parent, some (jsPathStr prec.path ++ sep :: d.doc.id)⟩ hpne,
              updateChildPaths, lookup_map_idPreserving (cascadeStep_id sep _ _), hlp,
              Option.map_some',
              cascadeStep_not_matched (fun rp hrp => hsafe p prec rp hp hlp hrp)]
          · rw [hppEq]
            rfl
        | false =>
          rw [hm] at hsave
          simp only [Bool.false_eq_true, if_false, Except.ok.injEq, Prod.mk.injEq] at hsave
          obtain ⟨hst, -⟩ := hsave
          subst hst
          refine ⟨{ d.doc with path := some (jsPathStr prec.path ++ sep :: d.doc.id) },
            lookup_upsert_self _ _, fun hc => Option.noConfusion hc,
            fun p' hp' => ?_⟩
          injection hp' with hp''
          subst hp''
          refine ⟨prec, ?_, pp, hppEq, ?_⟩
          · rw [lookup_upsert_ne store
                ⟨d.doc.id, d.doc.parent, some (jsPathStr prec.path ++ sep :: d.doc.id)⟩ hpne, hlp]
          · rw [hppEq]
            rfl
  · have hn : d.isNew = false := by
      cases hn : d.isNew
      · rfl
      · exact absurd (by rw [hn]; rfl) hreq
    have hm : d.modifiedParent = false := by
      cases hm : d.modifiedParent
      · rfl
      · refine absurd ?_ hreq
        rw [hm, Bool.or_true]
    rw [applySave, hn, hm] at hsave
    simp only [Bool.or_false, Bool.not_false, if_true, Except.ok.injEq, Prod.mk.injEq] at hsave
    obtain ⟨hst, -⟩ := hsave
    subst hst
    obtain ⟨r0, hr0s, hr0id, hr0path, hr0par⟩ := hcoh hn
    have hpar : r0.parent = d.doc.parent := hr0par hm
    refine ⟨d.doc, lookup_upsert_self _ _, ?_, ?_⟩
    · intro hpnone
      have hc := hwf.2.2 r0 hr0s
      rw [hpar, hpnone] at hc
      rw [← hr0path, hc, hr0id]
    · intro p hpp
      have hc := hwf.2.2 r0 hr0s
      rw [hpar, hpp] at hc
      obtain ⟨q, hqs, hqid, qp, hqp, hcomp⟩ := hc
      have hpne : p ≠ d.doc.id := fun he => hself (he ▸ hpp)
      refine ⟨q, ?_, qp, hqp, ?_⟩
      · rw [lookup_upsert_ne store d.doc hpne, ← hqid]
        exact lookup_of_mem_nodup hwf.1 hqs
      · rw [← hr0path, hcomp, hr0id]

/-- Witness for C1 (amended): creating a new child `se` of the stored root
`eu` persists `se` with path `"eu" + '#' + "se"`. -/
theorem claim1_amended_witness :
    ∃ rec', lookup
        [⟨"eu".toList, none, some "eu".toList⟩,
         ⟨"se".toList, some "eu".toList, some "eu#se".toList⟩]
        "se".toList = some rec' ∧
      ((some "eu".toList : Option (List Char)) = none → rec'.path = some "se".toList) ∧
      (∀ p, (some "eu".toList : Option (List Char)) = some p →
        ∃ prec', lookup
          [⟨"eu".toList, none, some "eu".toList⟩,
           ⟨"se".toList, some "eu".toList, some "eu#se".toList⟩] p = some prec' ∧
          ∃ pp, prec'.path = some pp ∧ rec'.path = some (pp ++ '#' :: "se".toList)) :=
  claim1_amended '#' [⟨"eu".toList, none, some "eu".toList⟩]
    ⟨⟨"se".toList, some "eu".toList, none⟩, true, true⟩
    [⟨"eu".toList, none, some "eu".toList⟩,
     ⟨"se".toList, some "eu".toList, some "eu#se".toList⟩]
    ⟨["eu".toList], ["undefined".toList]⟩
    ⟨by decide, by decide, by
      intro r hr
      rw [List.mem_singleton] at hr
      subst hr
      exact rfl⟩
    (fun _ => rfl)
    (fun h => absurd h (by decide))
    (fun p hp => by
      injection hp with h2
      subst h2
      decide)
    (by decide)
    (by
      intro p prec pp h1 h2 h3
      injection h1 with h1'
      subst h1'
      have h2' : (some (⟨"eu".toList, none, some "eu".toList⟩ : Rec) : Option Rec) =
          some prec := h2
      injection h2' with h2''
      subst h2''
      have h3' : (some "eu".toList : Option (List Char)) = some pp := h3
      injection h3' with h3''
      subst h3''
      decide)
    rfl

/-- A lean (detached) query-result object consumed by `listToTree`: id,
parent, path, and the remaining sortable field values (`orderBy` compares
field values; they are modelled as integers looked up by field name,
defaulting to 0). -/
structure LNode where
  id : List Char
  parent : Option (List Char)
  path : Option (List Char)
  vals : List (List Char × Int)
deriving DecidableEq

instance : Inhabited LNode := ⟨⟨[], none, none, []⟩⟩

/-- Field access for sorting. -/
def lookupVal (n : LNode) (k : List Char) : Int :=
  ((n.vals.find? (fun kv => kv.1 = k)).map Prod.snd).getD 0

/-- `mpathUtil.mongoSortToLodashSort`: each key of the mongo sort object in
insertion order; `desc` exactly when its value is `-1`. -/
structure LodashSort where
  keys : List (List Char)
  orders : List Bool

/-- The conversion itself (`orders` holds `true` for `asc`). -/
def mongoSortToLodashSort (s : List (List Char × Int)) : LodashSort :=
  ⟨s.map Prod.fst, s.map (fun kv => !(kv.2 = -1))⟩

/-- One key comparison of lodash `orderBy` (integer-valued fields): an
ascending key compares values directly, a descending key swaps them. -/
def keyCmp (asc : Bool) (x y : Int) : Ordering :=
  if asc then compare x y else compare y x

/-- The multi-key lodash comparator: first non-equal key decides. -/
def cmpBy : List (List Char × Bool) → LNode → LNode → Ordering
  | [], _, _ => .eq
  | (k, o) :: rest, a, b =>
    match keyCmp o (lookupVal a k) (lookupVal b k) with
    | .eq => cmpBy rest a b
    | .lt => .lt
    | .gt => .gt

/-- `a` may precede `b` under the comparator. -/
def lodashLeB (ks : List (List Char × Bool)) (a b : LNode) : Bool :=
  match cmpBy ks a b with
  | .gt => false
  | _ => true

theorem keyCmp_swap (o : Bool) (x y : Int) : keyCmp o x y = (keyCmp o y x).swap := by
  unfold keyCmp
  cases o <;> simp only [if_true, if_false, Bool.false_eq_true] <;>
    rcases lt_trichotomy x y with h | h | h
  · rw [compare_gt_iff_gt.mpr h, compare_lt_iff_lt.mpr h]
    rfl
  · rw [compare_eq_iff_eq.mpr h, compare_eq_iff_eq.mpr h.symm]
    rfl
  · rw [compare_lt_iff_lt.mpr h, compare_gt_iff_gt.mpr h]
    rfl
  · rw [compare_lt_iff_lt.mpr h, compare_gt_iff_gt.mpr h]
    rfl
  · rw [compare_eq_iff_eq.mpr h, compare_eq_iff_eq.mpr h.symm]
    rfl
  · rw [compare_gt_iff_gt.mpr h, compare_lt_iff_lt.mpr h]
    rfl

theorem cmpBy_swap (ks : List (List Char × Bool)) (a b : LNode) :
    cmpBy ks a b = (cmpBy ks b a).swap := by
  induction ks with
  | nil => rfl
  | cons ko rest ih =>
    obtain ⟨k, o⟩ := ko
    rw [cmpBy, cmpBy, keyCmp_swap]
    cases keyCmp o (lookupVal b k) (lookupVal a k) with
    | lt => rfl
    | gt => rfl
    | eq => exact ih

theorem lodashLeB_total (ks : List (List Char × Bool)) (a b : LNode) :
    lodashLeB ks a b = true ∨ lodashLeB ks b a = true := by
  unfold lodashLeB
  rw [cmpBy_swap]
  cases cmpBy ks b a with
  | lt => exact Or.inr rfl
  | eq => exact Or.inl rfl
  | gt => exact Or.inl rfl

theorem keyCmp_eq_iff (o : Bool) (x y : Int) : keyCmp o x y = .eq ↔ x = y := by
  unfold keyCmp
  cases o <;> simp only [if_true, if_false, Bool.false_eq_true]
  · rw [compare_eq_iff_eq]
    exact eq_comm
  · exact compare_eq_iff_eq

theorem keyCmp_lt_trans {o : Bool} {x y z : Int} (h1 : keyCmp o x y = .lt)
    (h2 : keyCmp o y z = .lt) : keyCmp o x z = .lt := by
  unfold keyCmp at *
  cases o <;> simp only [if_true, if_false, Bool.false_eq_true] at *
  · exact compare_lt_iff_lt.mpr (lt_trans (compare_lt_iff_lt.mp h2) (compare_lt_iff_lt.mp h1))
  · exact compare_lt_iff_lt.mpr (lt_trans (compare_lt_iff_lt.mp h1) (compare_lt_iff_lt.mp h2))

theorem lodashLeB_trans {ks : List (List Char × Bool)} {a b c : LNode}
    (h1 : lodashLeB ks a b = true) (h2 : lodashLeB ks b c = true) :
    lodashLeB ks a c = true := by
  unfold lodashLeB at *
  induction ks with
  | nil => rfl
  | cons ko rest ih =>
    obtain ⟨k, o⟩ := ko
    rw [cmpBy] at h1 h2 ⊢
    cases hab : keyCmp o (lookupVal a k) (lookupVal b k) with
    | gt => rw [hab] at h1; exact absurd h1 (by simp)
    | eq =>
      have hxy : lookupVal a k = lookupVal b k := (keyCmp_eq_iff o _ _).mp hab
      cases hbc : keyCmp o (lookupVal b k) (lookupVal c k) with
      | gt => rw [hbc] at h2; exact absurd h2 (by simp)
      | eq =>
        have hyz : lookupVal b k = lookupVal c k := (keyCmp_eq_iff o _ _).mp hbc
        have hac : keyCmp o (lookupVal a k) (lookupVal c k) = .eq :=
          (keyCmp_eq_iff o _ _).mpr (hxy.trans hyz)
        rw [hac]
        rw [hab] at h1
        rw [hbc] at h2
        exact ih h1 h2
      | lt =>
        have hac : keyCmp o (lookupVal a k) (lookupVal c k) = .lt := hxy ▸ hbc
        rw [hac]
    | lt =>
      cases hbc : keyCmp o (lookupVal b k) (lookupVal c k) with
      | gt => rw [hbc] at h2; exact absurd h2 (by simp)
      | eq =>
        have hyz : lookupVal b k = lookupVal c k := (keyCmp_eq_iff o _ _).mp hbc
        have hac : keyCmp o (lookupVal a k) (lookupVal c k) = .lt := hyz ▸ hab
        rw [hac]
      | lt =>
        rw [keyCmp_lt_trans hab hbc]

/-- Stable insertion of one element into a sorted list — the building block
of the model of lodash `_orderBy` (a stable sort by the comparator). -/
def insertB {α : Type} (le : α → α → Bool) (x : α) : List α → List α
  | [] => [x]
  | a :: t => if le x a then x :: a :: t else a :: insertB le x t

/-- The model of lodash `_orderBy` for a fixed comparator: a stable
insertion sort. -/
def orderByB {α : Type} (le : α → α → Bool) : List α → List α
  | [] => []
  | a :: t => insertB le a (orderByB le t)

/-- Boolean pairwise sortedness: every element is `le` every later one. -/
def pairwiseLeB {α : Type} (le : α → α → Bool) : List α → Bool
  | [] => true
  | a :: t => t.all (le a) && pairwiseLeB le t

theorem mem_insertB {α : Type} {le : α → α → Bool} {x y : α} {l : List α}
    (h : y ∈ insertB le x l) : y = x ∨ y ∈ l := by
  induction l with
  | nil =>
    rw [insertB] at h
    rcases List.mem_singleton.mp h with rfl
    exact Or.inl rfl
  | cons a t ih =>
    rw [insertB] at h
    by_cases hle : le x a = true
    · rw [if_pos hle] at h
      rcases List.mem_cons.mp h with rfl | h2
      · exact Or.inl rfl
      · exact Or.inr h2
    · rw [if_neg hle] at h
      rcases List.mem_cons.mp h with rfl | h2
      · exact Or.inr (List.mem_cons_self _ _)
      · rcases ih h2 with h3 | h3
        · exact Or.inl h3
        · exact Or.inr (List.mem_cons_of_mem _ h3)

theorem pairwiseLeB_insertB {α : Type} {le : α → α → Bool}
    (htotal : ∀ a b, le a b = true ∨ le b a = true)
    (htrans : ∀ {a b c}, le a b = true → le b c = true → le a c = true)
    (x : α) {l : List α} (hl : pairwiseLeB le l = true) :
    pairwiseLeB le (insertB le x l) = true := by
  induction l with
  | nil => simp [insertB, pairwiseLeB]
  | cons a t ih =>
    rw [pairwiseLeB, Bool.and_eq_true] at hl
    obtain ⟨hat, ht⟩ := hl
    rw [insertB]
    by_cases hle : le x a = true
    · rw [if_pos hle]
      rw [pairwiseLeB, Bool.and_eq_true]
      constructor
      · rw [List.all_cons, Bool.and_eq_true]
        refine ⟨hle, ?_⟩
        rw [List.all_eq_true] at hat ⊢
        intro y hy
        exact htrans hle (hat y hy)
      · rw [pairwiseLeB, Bool.and_eq_true]
        exact ⟨hat, ht⟩
    · rw [if_neg hle]
      have hax : le a x = true := by
        rcases htotal x a with h | h
        · exact absurd h hle
        · exact h
      rw [pairwiseLeB, Bool.and_eq_true]
      constructor
      · rw [List.all_eq_true]
        intro y hy
        rcases mem_insertB hy with rfl | h2
        · exact hax
        · rw [List.all_eq_true] at hat
          exact hat y h2
      · exact ih ht

theorem pairwiseLeB_orderByB {α : Type} {le : α → α → Bool}
    (htotal : ∀ a b, le a b = true ∨ le b a = true)
    (htrans : ∀ {a b c}, le a b = true → le b c = true → le a c = true)
    (l : List α) : pairwiseLeB le (orderByB le l) = true := by
  induction l with
  | nil => rfl
  | cons a t ih => exact pairwiseLeB_insertB htotal htrans a ih

theorem all_le_map {α β : Type} (le : β → β → Bool) (f : α → β) (x : β)
    (l : List α) : (l.map f).all (le x) = l.all (fun b => le x (f b)) := by
  induction l with
  | nil => rfl
  | cons b t ih => simp only [List.map_cons, List.all_cons, ih]

theorem pairwiseLeB_map {α β : Type} (le : β → β → Bool) (f : α → β)
    (l : List α) :
    pairwiseLeB le (l.map f) = pairwiseLeB (fun a b => le (f a) (f b)) l := by
  induction l with
  | nil => rfl
  | cons a t ih =>
    rw [List.map_cons, pairwiseLeB, pairwiseLeB, ih, all_le_map]

/-- The assembled tree: a node's data and its `children` array. -/
inductive Tree where
  | mk (data : LNode) (children : List Tree)

def Tree.data : Tree → LNode
  | .mk d _ => d

/-- JS object property assignment for `nodeMap[currentNode._id] = index`:
overwrite the key if present, else append it. -/
def mapInsert (m : List (List Char × Nat)) (k : List Char) (v : Nat) :
    List (List Char × Nat) :=
  if m.any (fun kv => kv.1 = k) then
    m.map (fun kv => if kv.1 = k then (k, v) else kv)
  else m ++ [(k, v)]

/-- `nodeMap[key]` lookup. -/
def mapFind (m : List (List Char × Nat)) (k : List Char) : Option Nat :=
  (m.find? (fun kv => kv.1 = k)).map Prod.snd

/-- The mutable state of the `listToTree` loop, with the shared node objects
represented through their indices into the input list: the `nodeMap` from id
to index, each node's current `children` index array, and the accumulated
`rootNodes`. -/
structure LTState where
  nodeMap : List (List Char × Nat)
  childs : List (List Nat)
  roots : List Nat

/-- One iteration of the `listToTree` loop for index `i`: record the node in
`nodeMap`, then either push it onto its parent's `children` (re-sorting that
array with `_orderBy` when a sort is in effect) or onto `rootNodes`.
A `none` parent is treated as not found in the map (the JS lookup uses the
stringified key; no id is assumed to be the literal text `"undefined"`). -/
def ltStep (shouldSort : Bool) (ks : List (List Char × Bool)) (nodes : List LNode)
    (st : LTState) (i : Nat) : LTState :=
  let n := nodes.getD i default
  let m' := mapInsert st.nodeMap n.id i
  match n.parent with
  | some p =>
    match mapFind m' p with
    | some pi =>
      let kids := (st.childs.getD pi []) ++ [i]
      let kids' := if shouldSort then
          orderByB (fun a b => lodashLeB ks (nodes.getD a default) (nodes.getD b default)) kids
        else kids
      ⟨m', st.childs.set pi kids', st.roots⟩
    | none => ⟨m', st.childs, st.roots ++ [i]⟩
  | none => ⟨m', st.childs, st.roots ++ [i]⟩

/-- The whole loop over the input list. -/
def ltRun (shouldSort : Bool) (ks : List (List Char × Bool)) (nodes : List LNode) :
    LTState :=
  (List.range nodes.length).foldl (ltStep shouldSort ks nodes)
    ⟨[], List.replicate nodes.length [], []⟩

/-- Materialization of the shared node objects into a tree, following the
`children` index arrays (`fuel` bounds the depth; the run uses the list
length, which suffices because a child's index is always strictly greater
than its parent's). -/
def matTree (nodes : List LNode) (childs : List (List Nat)) : Nat → Nat → Tree
  | 0, i => .mk (nodes.getD i default) []
  | fuel + 1, i =>
    .mk (nodes.getD i default) ((childs.getD i []).map (matTree nodes childs fuel))

/-- `mpathUtil.listToTree(list, sort)`: run the loop, sort the collected
root nodes when a sort is in effect, and read back the assembled trees. -/
def listToTree (nodes : List LNode) (sort : List (List Char × Int)) : List Tree :=
  let ls := mongoSortToLodashSort sort
  let ks := ls.keys.zip ls.orders
  let shouldSort := decide (0 < ls.keys.length)
  let st := ltRun shouldSort ks nodes
  let rootIdx := if shouldSort then
      orderByB (fun a b => lodashLeB ks (nodes.getD a default) (nodes.getD b default)) st.roots
    else st.roots
  rootIdx.map (matTree nodes st.childs nodes.length)

mutual

/-- Every sibling group strictly inside the tree is sorted. -/
def treeSortedB (le : LNode → LNode → Bool) : Tree → Bool
  | .mk _ cs => pairwiseLeB le (cs.map Tree.data) && childrenSortedB le cs

/-- Pointwise `treeSortedB` over a list of trees. -/
def childrenSortedB (le : LNode → LNode → Bool) : List Tree → Bool
  | [] => true
  | t :: ts => treeSortedB le t && childrenSortedB le ts

end

/-- The top-level sequence and every sibling group are sorted. -/
def forestSortedB (le : LNode → LNode → Bool) (ts : List Tree) : Bool :=
  pairwiseLeB le (ts.map Tree.data) && childrenSortedB le ts

theorem getD_mem_or_default {α : Type} (l : List α) (n : Nat) (d : α) :
    l.getD n d ∈ l ∨ l.getD n d = d := by
  rw [List.getD_eq_getElem?_getD]
  cases h : l[n]? with
  | none => exact Or.inr rfl
  | some x =>
    left
    simp only [Option.getD_some]
    exact List.getElem?_mem h

theorem matTree_data (nodes : List LNode) (childs : List (List Nat))
    (fuel i : Nat) :
    (matTree nodes childs fuel i).data = nodes.getD i default := by
  cases fuel <;> rfl

theorem childrenSortedB_eq_all (le : LNode → LNode → Bool) (ts : List Tree) :
    childrenSortedB le ts = ts.all (treeSortedB le) := by
  induction ts with
  | nil => rfl
  | cons t ts ih => rw [childrenSortedB, List.all_cons, ih]

theorem treeSortedB_matTree (le : LNode → LNode → Bool) (nodes : List LNode)
    (childs : List (List Nat))
    (hinv : ∀ l ∈ childs,
      pairwiseLeB (fun a b => le (nodes.getD a default) (nodes.getD b default)) l = true) :
    ∀ fuel i, treeSortedB le (matTree nodes childs fuel i) = true := by
  intro fuel
  induction fuel with
  | zero => intro i; rfl
  | succ f ih =>
    intro i
    rw [matTree, treeSortedB, Bool.and_eq_true]
    constructor
    · rw [List.map_map]
      have hmc : (childs.getD i []).map (Tree.data ∘ matTree nodes childs f) =
          (childs.getD i []).map (fun j => nodes.getD j default) :=
        List.map_congr_left (fun j _ => matTree_data nodes childs f j)
      rw [hmc, pairwiseLeB_map]
      rcases getD_mem_or_default childs i [] with hmem | hdef
      · exact hinv _ hmem
      · rw [hdef]
        rfl
    · rw [childrenSortedB_eq_all, List.all_eq_true]
      intro t ht
      rw [List.mem_map] at ht
      obtain ⟨j, -, rfl⟩ := ht
      exact ih j

theorem foldl_inv {σ α : Type} {P : σ → Prop} (f : σ → α → σ)
    (hstep : ∀ st x, P st → P (f st x)) :
    ∀ (l : List α) (st : σ), P st → P (l.foldl f st) := by
  intro l
  induction l with
  | nil => exact fun st h => h
  | cons x xs ih => exact fun st h => ih (f st x) (hstep st x h)

theorem ltStep_childs_sorted {ks : List (List Char × Bool)} {nodes : List LNode}
    {st : LTState} (i : Nat)
    (hinv : ∀ l ∈ st.childs,
      pairwiseLeB (fun a b =>
        lodashLeB ks (nodes.getD a default) (nodes.getD b default)) l = true) :
    ∀ l ∈ (ltStep true ks nodes st i).childs,
      pairwiseLeB (fun a b =>
        lodashLeB ks (nodes.getD a default) (nodes.getD b default)) l = true := by
  intro l hl
  rw [ltStep] at hl
  cases hpar : (nodes.getD i default).parent with
  | none =>
    simp only [hpar] at hl
    exact hinv l hl
  | some p =>
    simp only [hpar] at hl
    cases hf : mapFind (mapInsert st.nodeMap (nodes.getD i default).id i) p with
    | none =>
      simp only [hf] at hl
      exact hinv l hl
    | some pi =>
      simp only [hf, if_true] at hl
      rcases List.mem_or_eq_of_mem_set hl with hl2 | rfl
      · exact hinv l hl2
      · exact pairwiseLeB_orderByB
          (fun a b => lodashLeB_total ks (nodes.getD a default) (nodes.getD b default))
          (fun h1 h2 => lodashLeB_trans h1 h2) _

theorem pairwise_map_mat (le : LNode → LNode → Bool) (nodes : List LNode)
    (childs : List (List Nat)) (fuel : Nat) (idxs : List Nat) :
    pairwiseLeB le ((idxs.map (matTree nodes childs fuel)).map Tree.data) =
    pairwiseLeB (fun a b => le (nodes.getD a default) (nodes.getD b default)) idxs := by
  rw [List.map_map]
  have hfun : Tree.data ∘ matTree nodes childs fuel = fun j => nodes.getD j default :=
    funext (fun j => matTree_data nodes childs fuel j)
  rw [hfun, pairwiseLeB_map]

/-- The sort preparation of `getChildrenTree` (source: `let postSortObj = {};
if (options.sort) postSortObj = options.sort; options.sort = { path: 1 };`):
first component the sort the store query is issued with, second the sort
handed to `listToTree` after the results are fetched. -/
def gctSortPlan (callerSort : Option (List (List Char × Int))) :
    List (List Char × Int) × List (List Char × Int) :=
  ([("path".toList, (1 : Int))], callerSort.getD [])

/-- Claim C8: the children-tree query is always issued sorted ascending on
`path`, whatever the caller supplied; the caller's sort is instead handed to
`listToTree`, and with a nonempty caller sort every sibling group and the
top-level sequence of the assembled tree is sorted by the corresponding
lodash comparator. -/
theorem claim8_structural_sort (callerSort : List (List Char × Int))
    (nodes : List LNode) (hks : callerSort ≠ []) :
    (∀ cs : Option (List (List Char × Int)),
      (gctSortPlan cs).1 = [("path".toList, (1 : Int))]) ∧
    (gctSortPlan (some callerSort)).2 = callerSort ∧
    forestSortedB
      (lodashLeB ((mongoSortToLodashSort callerSort).keys.zip
        (mongoSortToLodashSort callerSort).orders))
      (listToTree nodes callerSort) = true := by
  refine ⟨fun cs => rfl, rfl, ?_⟩
  have hss : decide (0 < (mongoSortToLodashSort callerSort).keys.length) = true := by
    rw [decide_eq_true_eq, mongoSortToLodashSort]
    simp only [List.length_map]
    exact List.length_pos.mpr hks
  have htotal : ∀ a b : Nat,
      lodashLeB ((mongoSortToLodashSort callerSort).keys.zip
        (mongoSortToLodashSort callerSort).orders)
        (nodes.getD a default) (nodes.getD b default) = true ∨
      lodashLeB ((mongoSortToLodashSort callerSort).keys.zip
        (mongoSortToLodashSort callerSort).orders)
        (nodes.getD b default) (nodes.getD a default) = true :=
    fun a b => lodashLeB_total _ _ _
  have hinit : ∀ l ∈ (List.replicate nodes.length ([] : List Nat)),
      pairwiseLeB (fun a b =>
        lodashLeB ((mongoSortToLodashSort callerSort).keys.zip
          (mongoSortToLodashSort callerSort).orders)
          (nodes.getD a default) (nodes.getD b default)) l = true := by
    intro l hl
    rw [List.eq_of_mem_replicate hl]
    rfl
  have hinv : ∀ l ∈ (ltRun true ((mongoSortToLodashSort callerSort).keys.zip
      (mongoSortToLodashSort callerSort).orders) nodes).childs,
      pairwiseLeB (fun a b =>
        lodashLeB ((mongoSortToLodashSort callerSort).keys.zip
          (mongoSortToLodashSort callerSort).orders)
          (nodes.getD a default) (nodes.getD b default)) l = true := by
    rw [ltRun]
    exact @foldl_inv LTState Nat
      (fun st => ∀ l ∈ st.childs,
        pairwiseLeB (fun a b =>
          lodashLeB ((mongoSortToLodashSort callerSort).keys.zip
            (mongoSortToLodashSort callerSort).orders)
            (nodes.getD a default) (nodes.getD b default)) l = true)
      (ltStep true ((mongoSortToLodashSort callerSort).keys.zip
        (mongoSortToLodashSort callerSort).orders) nodes)
      (fun st x h => ltStep_childs_sorted x h)
      (List.range nodes.length)
      ⟨[], List.replicate nodes.length [], []⟩
      hinit
  rw [listToTree]
  simp only [hss, if_true]
  rw [forestSortedB, Bool.and_eq_true]
  constructor
  · rw [pairwise_map_mat]
    exact pairwiseLeB_orderByB htotal (fun h1 h2 => lodashLeB_trans h1 h2) _
  · rw [childrenSortedB_eq_all, List.all_eq_true]
    intro t ht
    rw [List.mem_map] at ht
    obtain ⟨j, -, rfl⟩ := ht
    exact treeSortedB_matTree _ nodes _ hinv nodes.length j

/-- Witness for C8: a four-node forest assembled with the caller sort
`name: 1` has every sibling group and the top-level sequence sorted. -/
theorem claim8_structural_sort_witness :
    forestSortedB
      (lodashLeB ((mongoSortToLodashSort [("name".toList, (1 : Int))]).keys.zip
        (mongoSortToLodashSort [("name".toList, (1 : Int))]).orders))
      (listToTree
        [⟨"eu".toList, none, some "eu".toList, [("name".toList, 2)]⟩,
         ⟨"af".toList, none, some "af".toList, [("name".toList, 1)]⟩,
         ⟨"se".toList, some "eu".toList, some "eu#se".toList, [("name".toList, 4)]⟩,
         ⟨"no".toList, some "eu".toList, some "eu#no".toList, [("name".toList, 3)]⟩]
        [("name".toList, (1 : Int))]) = true :=
  (claim8_structural_sort [("name".toList, (1 : Int))]
    [⟨"eu".toList, none, some "eu".toList, [("name".toList, 2)]⟩,
     ⟨"af".toList, none, some "af".toList, [("name".toList, 1)]⟩,
     ⟨"se".toList, some "eu".toList, some "eu#se".toList, [("name".toList, 4)]⟩,
     ⟨"no".toList, some "eu".toList, some "eu#no".toList, [("name".toList, 3)]⟩]
    (by decide)).2.2

/-- The outcome of the promise chain of the current `getChildrenTree`: the
promise always resolves — either with the assembled forest, or (after
`.catch((err) => console.error(err))`) with `undefined`, carrying only a
console log of the error. -/
inductive GctOutcome (E : Type) where
  | resolved (forest : List Tree)
  | resolvedUndefined (logged : E)

/-- The `getChildrenTree` result pipeline over the store's find outcome:
`this.find(...).populate(...).then(filter by level).then(listToTree).catch(
(err) => console.error(err))`. -/
def getChildrenTreeResult {E : Type} (sep : Char) (minLevel maxLevel : Nat)
    (postSort : List (List Char × Int)) (findResult : Except E (List LNode)) :
    GctOutcome E :=
  match findResult with
  | .ok results =>
    .resolved (listToTree
      (results.filter (fun n =>
        decide (minLevel ≤ getLevelByPathAndSeparator n.path sep) &&
        decide (getLevelByPathAndSeparator n.path sep ≤ maxLevel)))
      postSort)
  | .error e => .resolvedUndefined e

/-- Claim C9 (code bug): when the store's find fails, the current
`getChildrenTree` does not propagate the error to the caller — the
rejection is caught, logged, and the operation resolves with `undefined`
(never with a forest, and never as a rejection the caller could observe). -/
theorem claim9_error_swallowed {E : Type} (sep : Char) (minLevel maxLevel : Nat)
    (postSort : List (List Char × Int)) (e : E) :
    getChildrenTreeResult sep minLevel maxLevel postSort (.error e) =
      .resolvedUndefined e ∧
    ∀ forest, (GctOutcome.resolvedUndefined e : GctOutcome E) ≠ .resolved forest :=
  ⟨rfl, fun _ h => GctOutcome.noConfusion h⟩

theorem sep_free_pref {sep : Char} {u : List Char} :
    ∀ {v w : List Char}, sep ∉ u → sep ∉ v → (u ++ [sep]) <+: (v ++ sep :: w) →
      u = v := by
  induction u with
  | nil =>
    intro v w _ hv h
    cases v with
    | nil => rfl
    | cons b v' =>
      rw [List.nil_append, List.cons_append, List.cons_prefix_cons] at h
      obtain ⟨h1, -⟩ := h
      subst h1
      exact absurd (List.mem_cons_self _ _) hv
  | cons a u' ih =>
    intro v w hu hv h
    cases v with
    | nil =>
      rw [List.cons_append, List.nil_append, List.cons_prefix_cons] at h
      obtain ⟨h1, -⟩ := h
      subst h1
      exact absurd (List.mem_cons_self _ _) hu
    | cons b v' =>
      rw [List.cons_append, List.cons_append, List.cons_prefix_cons] at h
      obtain ⟨h1, h2⟩ := h
      subst h1
      have hu' : sep ∉ u' := fun hm => hu (List.mem_cons_of_mem _ hm)
      have hv' : sep ∉ v' := fun hm => hv (List.mem_cons_of_mem _ hm)
      rw [ih hu' hv' h2]

theorem sep_mem_of_pref {x : Char} {u v : List Char} (h : (u ++ [x]) <+: v) :
    x ∈ v := by
  obtain ⟨t, ht⟩ := h
  rw [← ht]
  simp

/-- Every stored path is free of the regex wildcard `'.'`. -/
def pathsDotFree (store : Store) : Prop :=
  ∀ r ∈ store, '.' ∉ r.path.getD []

instance (store : Store) : Decidable (pathsDotFree store) :=
  List.decidableBAll (fun (r : Rec) => '.' ∉ r.path.getD []) store

theorem pathsDotFree_some {store : Store} (h : pathsDotFree store) {r : Rec}
    (hr : r ∈ store) {p : List Char} (hp : r.path = some p) : '.' ∉ p := by
  have hpd := h r hr
  rw [hp] at hpd
  exact hpd

/-- The path a reparented child of the removed node ends up with: its new
parent's path (when any), the separator and its id. -/
def cNewPath (sep : Char) (gpp : Option (List Char)) (cid : List Char) : List Char :=
  match gpp with
  | some gp => gp ++ sep :: cid
  | none => cid

/-- `r`'s pre-removal path lies in child `c`'s subtree (separator-anchored
extension of `c`'s old path `Xp + sep + c.id`). -/
def anchorHitB (sep : Char) (Xp : List Char) (r c : Rec) : Bool :=
  match r.path with
  | some p => ((Xp ++ sep :: c.id) ++ [sep]).isPrefixOf p
  | none => false

/-- The expected record-wise transformation of the collection after the
children in `done` have been reparented: a processed child gets the new
parent and the composed path; a record inside a processed child's former
subtree gets the prefix-rewritten path; everything else is untouched. -/
def rpExpect (sep : Char) (Xp : List Char) (gpar gpp : Option (List Char))
    (done : List Rec) (r : Rec) : Rec :=
  match lookup done r.id with
  | some c => ⟨c.id, gpar, some (cNewPath sep gpp c.id)⟩
  | none =>
    match done.find? (anchorHitB sep Xp r) with
    | some c =>
      match r.path with
      | some p =>
        { r with path := some (cNewPath sep gpp c.id ++ p.drop (Xp ++ sep :: c.id).length) }
      | none => r
    | none => r

theorem rpExpect_id (sep : Char) (Xp : List Char) (gpar gpp : Option (List Char))
    (done : List Rec) (r : Rec) :
    (rpExpect sep Xp gpar gpp done r).id = r.id := by
  rw [rpExpect]
  cases hf : lookup done r.id with
  | some c =>
    have := List.find?_some hf
    simp only [decide_eq_true_eq] at this
    simp [this]
  | none =>
    cases hf2 : done.find? (anchorHitB sep Xp r) with
    | none => rfl
    | some c => cases r.path <;> rfl

theorem rpExpect_nil (sep : Char) (Xp : List Char) (gpar gpp : Option (List Char))
    (r : Rec) : rpExpect sep Xp gpar gpp [] r = r := rfl

theorem rpExpect_untouched {sep : Char} {Xp : List Char}
    {gpar gpp : Option (List Char)} {done : List Rec} {r : Rec}
    (hid : ∀ c ∈ done, c.id ≠ r.id)
    (hanchor : ∀ c ∈ done, anchorHitB sep Xp r c = false) :
    rpExpect sep Xp gpar gpp done r = r := by
  rw [rpExpect]
  have h1 : lookup done r.id = none := by
    rw [lookup, List.find?_eq_none]
    intro c hc
    simp only [decide_eq_true_eq]
    exact hid c hc
  have h2 : done.find? (anchorHitB sep Xp r) = none := by
    rw [List.find?_eq_none]
    intro c hc
    rw [hanchor c hc]
    exact Bool.false_ne_true
  rw [h1, h2]

theorem child_comp {sep : Char} {store : Store} (hwf : WFStore sep store)
    {X : Rec} (hX : X ∈ store) {Xp : List Char} (hXp : X.path = some Xp)
    {c : Rec} (hc : c ∈ store) (hcp : c.parent = some X.id) :
    c.path = some (Xp ++ sep :: c.id) := by
  have hcomp := hwf.2.2 c hc
  rw [hcp] at hcomp
  obtain ⟨q, hqS, hqid, qp, hqp, hcpath⟩ := hcomp
  have hq : q = X := mem_nodup_id_eq hwf.1 hqS hX hqid
  subst hq
  rw [hXp] at hqp
  injection hqp with hqp'
  rw [hqp']
  exact hcpath

theorem no_self_parent {sep : Char} {store : Store} (hwf : WFStore sep store)
    {X : Rec} (hX : X ∈ store) : X.parent ≠ some X.id := by
  intro h
  obtain ⟨Xp, hXp⟩ := hwf.path_some hX
  have hcomp := child_comp hwf hX hXp hX h
  rw [hXp] at hcomp
  injection hcomp with hcomp'
  have := congrArg List.length hcomp'
  simp at this

theorem strip_head {sep : Char} {gp u v : List Char}
    (h : gp ++ sep :: u <+: gp ++ sep :: v) : u <+: v := by
  have e1 : gp ++ sep :: u = (gp ++ [sep]) ++ u := by simp
  have e2 : gp ++ sep :: v = (gp ++ [sep]) ++ v := by simp
  rw [e1, e2] at h
  exact (List.prefix_append_right_inj (gp ++ [sep])).mp h

theorem cNew_unhit {sep : Char} {Xp cid i : List Char} {gpp : Option (List Char)}
    (hdot : '.' ∉ Xp ++ sep :: cid)
    (hgpp : gpp = none ∨ ∃ gp xid, gpp = some gp ∧ Xp = gp ++ sep :: xid)
    (hi : sep ∉ i) :
    classAccepts sep (Xp ++ sep :: cid) (cNewPath sep gpp i) = false := by
  cases hcl : classAccepts sep (Xp ++ sep :: cid) (cNewPath sep gpp i) with
  | false => rfl
  | true =>
    exfalso
    have hpre := (classAccepts_dotFree hdot _).mp hcl
    rcases hgpp with hg | ⟨gp, xid, hg, hXp⟩
    · subst hg
      simp only [cNewPath] at hpre
      have h1 : (Xp ++ [sep]) <+: i :=
        List.IsPrefix.trans ⟨cid ++ [sep], by simp⟩ hpre
      exact hi (sep_mem_of_pref h1)
    · subst hg
      subst hXp
      simp only [cNewPath] at hpre
      have h2 : (gp ++ [sep]) ++ (xid ++ [sep]) <+: (gp ++ [sep]) ++ i := by
        have hA : (gp ++ [sep]) ++ (xid ++ [sep]) <+:
            ((gp ++ sep :: xid) ++ sep :: cid) ++ [sep] := ⟨cid ++ [sep], by simp⟩
        have hB : gp ++ sep :: i = (gp ++ [sep]) ++ i := by simp
        rw [← hB]
        exact hA.trans hpre
      have h1 := (List.prefix_append_right_inj (gp ++ [sep])).mp h2
      exact hi (sep_mem_of_pref h1)

theorem rewrit_unhit {sep : Char} {Xp cid xid cid' t : List Char}
    {gpp : Option (List Char)}
    (hdot : '.' ∉ Xp ++ sep :: cid)
    (hgpp : (gpp = none ∧ Xp = xid) ∨ ∃ gp, gpp = some gp ∧ Xp = gp ++ sep :: xid)
    (hx : sep ∉ xid) (hc' : sep ∉ cid') (hne : xid ≠ cid') :
    classAccepts sep (Xp ++ sep :: cid) (cNewPath sep gpp cid' ++ sep :: t) = false := by
  cases hcl : classAccepts sep (Xp ++ sep :: cid) (cNewPath sep gpp cid' ++ sep :: t) with
  | false => rfl
  | true =>
    exfalso
    have hpre := (classAccepts_dotFree hdot _).mp hcl
    rcases hgpp with ⟨hg, hXp⟩ | ⟨gp, hg, hXp⟩
    · subst hg
      subst hXp
      simp only [cNewPath] at hpre
      have h1 : (Xp ++ [sep]) <+: cid' ++ sep :: t :=
        List.IsPrefix.trans ⟨cid ++ [sep], by simp⟩ hpre
      exact hne (sep_free_pref hx hc' h1)
    · subst hg
      subst hXp
      simp only [cNewPath] at hpre
      have h2 : (gp ++ [sep]) ++ (xid ++ [sep]) <+: (gp ++ [sep]) ++ (cid' ++ sep :: t) := by
        have hA : (gp ++ [sep]) ++ (xid ++ [sep]) <+:
            ((gp ++ sep :: xid) ++ sep :: cid) ++ [sep] := ⟨cid ++ [sep], by simp⟩
        have hB : (gp ++ sep :: cid') ++ sep :: t = (gp ++ [sep]) ++ (cid' ++ sep :: t) := by
          simp
        rw [← hB]
        exact hA.trans hpre
      have h1 := (List.prefix_append_right_inj (gp ++ [sep])).mp h2
      exact hne (sep_free_pref hx hc' h1)

theorem anchorHitB_true {sep : Char} {Xp : List Char} {r a : Rec}
    (h : anchorHitB sep Xp r a = true) :
    ∃ p t, r.path = some p ∧ p = (Xp ++ sep :: a.id) ++ sep :: t := by
  cases hp : r.path with
  | none =>
    simp only [anchorHitB, hp] at h
    exact Bool.noConfusion h
  | some p =>
    simp only [anchorHitB, hp] at h
    obtain ⟨t, ht⟩ := List.isPrefixOf_iff_prefix.mp h
    exact ⟨p, t, rfl, by rw [← ht]; simp⟩

theorem anchorHitB_of {sep : Char} {Xp : List Char} {r a : Rec} {p t : List Char}
    (hp : r.path = some p) (hpt : p = (Xp ++ sep :: a.id) ++ sep :: t) :
    anchorHitB sep Xp r a = true := by
  simp only [anchorHitB, hp, hpt]
  exact List.isPrefixOf_iff_prefix.mpr ⟨t, by simp⟩

theorem grec_untouched {sep : Char} {store : Store} (hwf : WFStore sep store)
    {X : Rec} (hX : X ∈ store) {Xp : List Char} (hXp : X.path = some Xp)
    {grec : Rec} (hg : grec ∈ store) {gp : List Char} (hgp : grec.path = some gp)
    (hXpf : Xp = gp ++ sep :: X.id) (gpar gpp : Option (List Char))
    {done : List Rec} (hdone : ∀ a ∈ done, a ∈ store ∧ a.parent = some X.id) :
    rpExpect sep Xp gpar gpp done grec = grec := by
  apply rpExpect_untouched
  · intro a ha hid
    have hag : a = grec := mem_nodup_id_eq hwf.1 (hdone a ha).1 hg hid
    have hgP : grec.parent = some X.id := hag ▸ (hdone a ha).2
    have hcomp := child_comp hwf hX hXp hg hgP
    rw [hgp] at hcomp
    injection hcomp with h'
    rw [hXpf] at h'
    have hlen := congrArg List.length h'
    simp at hlen
  · intro a ha
    cases hhit : anchorHitB sep Xp grec a with
    | false => rfl
    | true =>
      exfalso
      simp only [anchorHitB, hgp] at hhit
      have hpre := List.isPrefixOf_iff_prefix.mp hhit
      have hlen := hpre.length_le
      rw [hXpf] at hlen
      simp at hlen

theorem upsert_of_any {store : Store} {rec : Rec}
    (h : ∃ x ∈ store, x.id = rec.id) :
    upsert store rec = store.map (fun r => if r.id = rec.id then rec else r) := by
  obtain ⟨x, hx, he⟩ := h
  rw [upsert, if_pos (List.any_eq_true.mpr ⟨x, hx, decide_eq_true he⟩)]

/-- One reparent save over the partially rewritten store advances the
expected transformation by one child: the cascade from the child's old path
plus the write of the child record turn `rpExpect … done` into
`rpExpect … (done ++ [c])`, pointwise over the collection. -/
theorem reparent_core (sep : Char) (store : Store)
    (hnd : store.Pairwise (fun a b => a.id ≠ b.id)) (hdf : pathsDotFree store)
    (hids : ∀ r ∈ store, r.id ≠ [] ∧ sep ∉ r.id)
    (X : Rec) (hX : X ∈ store) (Xp : List Char)
    (gpar gpp : Option (List Char))
    (hshape : (gpp = none ∧ Xp = X.id) ∨ ∃ gp, gpp = some gp ∧ Xp = gp ++ sep :: X.id)
    (done : List Rec) (hdone : ∀ a ∈ done, a ∈ store ∧ a.parent = some X.id)
    (hdoneX : ∀ a ∈ done, a.id ≠ X.id)
    (c : Rec) (hc : c ∈ store) (hcOld : c.path = some (Xp ++ sep :: c.id))
    (hcnew : ∀ a ∈ done, a.id ≠ c.id) :
    upsert
        (updateChildPaths sep (store.map (rpExpect sep Xp gpar gpp done))
          (Xp ++ sep :: c.id) (cNewPath sep gpp c.id))
        ⟨c.id, gpar, some (cNewPath sep gpp c.id)⟩ =
      store.map (rpExpect sep Xp gpar gpp (done ++ [c])) := by
  have hdotc : '.' ∉ Xp ++ sep :: c.id := pathsDotFree_some hdf hc hcOld
  have hshape' : gpp = none ∨ ∃ gp xid, gpp = some gp ∧ Xp = gp ++ sep :: xid := by
    rcases hshape with ⟨h1, -⟩ | ⟨gp, h1, h2⟩
    · exact Or.inl h1
    · exact Or.inr ⟨gp, X.id, h1, h2⟩
  rw [updateChildPaths]
  rw [upsert_of_any ⟨cascadeStep sep (Xp ++ sep :: c.id) (cNewPath sep gpp c.id)
      (rpExpect sep Xp gpar gpp done c),
    List.mem_map_of_mem _ (List.mem_map_of_mem _ hc),
    by rw [cascadeStep_id, rpExpect_id]⟩]
  rw [List.map_map, List.map_map]
  refine List.map_congr_left ?_
  intro r hr
  simp only [Function.comp_apply]
  by_cases hrc : r.id = c.id
  · have hre : r = c := mem_nodup_id_eq hnd hr hc hrc
    subst hre
    rw [if_pos (by rw [cascadeStep_id, rpExpect_id])]
    have hl : lookup (done ++ [r]) r.id = some r := by
      rw [lookup, List.find?_append]
      have h1 : List.find? (fun a => a.id = r.id) done = none := by
        rw [List.find?_eq_none]
        intro a ha
        simp only [decide_eq_true_eq]
        exact hcnew a ha
      rw [h1]
      simp [List.find?]
    simp only [rpExpect, hl]
  · rw [if_neg (fun he => hrc (by rw [cascadeStep_id, rpExpect_id] at he; exact he))]
    have hcid : ¬ c.id = r.id := fun h => hrc h.symm
    have hl0 : lookup [c] r.id = none := by
      rw [lookup, List.find?_cons_of_neg _ (by simp [hcid])]
      rfl
    cases hf : lookup done r.id with
    | some a =>
      have hamem : a ∈ done := List.mem_of_find?_eq_some hf
      have hl' : lookup (done ++ [c]) r.id = some a := by
        rw [lookup] at hf
        rw [lookup, List.find?_append, hf]
        rfl
      simp only [rpExpect, hf, hl']
      have hfalse := @cNew_unhit sep Xp c.id a.id gpp hdotc hshape'
        (hids a (hdone a hamem).1).2
      simp only [cascadeStep, hfalse, Bool.false_eq_true, if_false]
    | none =>
      have hl' : lookup (done ++ [c]) r.id = none := by
        rw [lookup] at hf
        rw [lookup, List.find?_append, hf]
        exact hl0
      cases hf2 : List.find? (anchorHitB sep Xp r) done with
      | some a =>
        have hamem : a ∈ done := List.mem_of_find?_eq_some hf2
        have hhit : anchorHitB sep Xp r a = true := List.find?_some hf2
        obtain ⟨p, t, hp, hpt⟩ := anchorHitB_true hhit
        have hf2' : List.find? (anchorHitB sep Xp r) (done ++ [c]) = some a := by
          rw [List.find?_append, hf2]
          rfl
        simp only [rpExpect, hf, hl', hf2, hf2', hp]
        subst hpt
        rw [List.drop_left' rfl]
        have hfalse := @rewrit_unhit sep Xp c.id X.id a.id t gpp hdotc hshape
          (hids X hX).2 (hids a (hdone a hamem).1).2
          (fun h => hdoneX a hamem h.symm)
        simp only [cascadeStep, hfalse, Bool.false_eq_true, if_false]
      | none =>
        simp only [rpExpect, hf, hf2, hl']
        cases hac : anchorHitB sep Xp r c with
        | true =>
          have hf2' : List.find? (anchorHitB sep Xp r) (done ++ [c]) = some c := by
            rw [List.find?_append, hf2]
            show List.find? (anchorHitB sep Xp r) [c] = some c
            rw [List.find?_cons_of_pos _ hac]
          obtain ⟨p, t, hp, hpt⟩ := anchorHitB_true hac
          simp only [hf2', hp]
          have hacc : classAccepts sep (Xp ++ sep :: c.id) p = true :=
            classAccepts_of_anchored ⟨t, by rw [hpt]; simp⟩
          simp only [cascadeStep, hp, hacc, if_true]
        | false =>
          have hf2' : List.find? (anchorHitB sep Xp r) (done ++ [c]) = none := by
            rw [List.find?_append, hf2]
            show List.find? (anchorHitB sep Xp r) [c] = none
            rw [List.find?_cons_of_neg _ (by simp [hac])]
            rfl
          simp only [hf2']
          apply cascadeStep_not_matched
          intro rp hrp
          cases hcl : classAccepts sep (Xp ++ sep :: c.id) rp with
          | false => rfl
          | true =>
            exfalso
            have hpre := (classAccepts_dotFree hdotc rp).mp hcl
            have hhit : anchorHitB sep Xp r c = true := by
              simp only [anchorHitB, hrp]
              exact List.isPrefixOf_iff_prefix.mpr hpre
            rw [hac] at hhit
            exact Bool.noConfusion hhit

/-- One iteration of the REPARENT loop: saving child `c` with the deleted
node's parent over the partially rewritten store succeeds and produces the
store rewritten for `done ++ [c]`. -/
theorem reparent_step (sep : Char) (store : Store)
    (hwf : WFStore sep store) (hdf : pathsDotFree store)
    (X : Rec) (hX : X ∈ store) (Xp : List Char) (hXp : X.path = some Xp)
    (gpp : Option (List Char))
    (hgp : (X.parent = none ∧ gpp = none) ∨
      ∃ g, X.parent = some g ∧ ∃ grec, grec ∈ store ∧ grec.id = g ∧ grec.path = gpp)
    (done : List Rec) (hdone : ∀ a ∈ done, a ∈ store ∧ a.parent = some X.id)
    (c : Rec) (hc : c ∈ store) (hcP : c.parent = some X.id)
    (hcnew : ∀ a ∈ done, a.id ≠ c.id) :
    (applySave sep (store.map (rpExpect sep Xp X.parent gpp done))
        ⟨{ c with parent := X.parent }, false, true⟩).map Prod.fst =
      .ok (store.map (rpExpect sep Xp X.parent gpp (done ++ [c]))) := by
  have hnd := hwf.1
  have hcOld : c.path = some (Xp ++ sep :: c.id) := child_comp hwf hX hXp hc hcP
  have hdoneX : ∀ a ∈ done, a.id ≠ X.id := by
    intro a ha hid
    have haX : a = X := mem_nodup_id_eq hnd (hdone a ha).1 hX hid
    exact no_self_parent hwf hX (haX ▸ (hdone a ha).2)
  rcases hgp with ⟨hXpar, hgppn⟩ | ⟨g, hXpar, grec, hgS, hgid, hgpath⟩
  · subst hgppn
    have hXpid : Xp = X.id := by
      have hcm := hwf.2.2 X hX
      simp only [hXpar] at hcm
      rw [hXp] at hcm
      injection hcm
    have hcore := reparent_core sep store hnd hdf hwf.2.1 X hX Xp none none
      (Or.inl ⟨rfl, hXpid⟩) done hdone hdoneX c hc hcOld hcnew
    simp only [cNewPath] at hcore
    rw [applySave, hXpar]
    simp only [Bool.false_or, Bool.not_true, Bool.false_eq_true, if_false, preSaveRoot,
      hcOld, jsPathStr, if_true, Except.map]
    exact congrArg Except.ok hcore
  · have hcm := hwf.2.2 X hX
    simp only [hXpar] at hcm
    obtain ⟨q, hqS, hqid, qp, hqp, hXcomp⟩ := hcm
    have hqg : q = grec := mem_nodup_id_eq hnd hqS hgS (by rw [hqid, hgid])
    rw [hqg] at hqp
    have hgg : gpp = some qp := by rw [← hgpath, hqp]
    subst hgg
    have hXpf : Xp = qp ++ sep :: X.id := by
      rw [hXp] at hXcomp
      injection hXcomp
    have hlookS : lookup store g = some grec := by
      rw [← hgid]
      exact lookup_of_mem_nodup hnd hgS
    have hEg : rpExpect sep Xp X.parent (some qp) done grec = grec :=
      grec_untouched hwf hX hXp hgS hqp hXpf X.parent (some qp) hdone
    have hlookM : lookup (store.map (rpExpect sep Xp X.parent (some qp) done)) g =
        some grec := by
      rw [lookup_map_idPreserving (rpExpect_id sep Xp X.parent (some qp) done), hlookS,
        Option.map_some', hEg]
    have hgne : g.isEmpty = false := by
      have hne := (hwf.2.1 grec hgS).1
      rw [hgid] at hne
      cases g with
      | nil => exact absurd rfl hne
      | cons a l => rfl
    have hcore := reparent_core sep store hnd hdf hwf.2.1 X hX Xp X.parent (some qp)
      (Or.inr ⟨qp, rfl, hXpf⟩) done hdone hdoneX c hc hcOld hcnew
    simp only [cNewPath] at hcore
    rw [hXpar] at hEg hlookM hcore ⊢
    rw [applySave]
    simp only [Bool.false_or, Bool.not_true, Bool.false_eq_true, if_false, hgne,
      preSaveWithParent, hlookM, hqp, jsPathStr, hcOld, if_true, Except.map]
    exact congrArg Except.ok hcore

/-- The REPARENT loop over the remaining children, started from the store
rewritten for the already processed children, succeeds and produces the
store rewritten for all of them. -/
theorem reparent_fold (sep : Char) (store : Store)
    (hwf : WFStore sep store) (hdf : pathsDotFree store)
    (X : Rec) (hX : X ∈ store) (Xp : List Char) (hXp : X.path = some Xp)
    (gpp : Option (List Char))
    (hgp : (X.parent = none ∧ gpp = none) ∨
      ∃ g, X.parent = some g ∧ ∃ grec, grec ∈ store ∧ grec.id = g ∧ grec.path = gpp) :
    ∀ todo done,
      store.filter (fun r => r.parent = some X.id) = done ++ todo →
      List.foldlM
          (fun st c =>
            (applySave sep st ⟨{ c with parent := X.parent }, false, true⟩).map Prod.fst)
          (store.map (rpExpect sep Xp X.parent gpp done)) todo =
        Except.ok (store.map (rpExpect sep Xp X.parent gpp (done ++ todo))) := by
  intro todo
  induction todo with
  | nil =>
    intro done h
    rw [List.foldlM_nil, List.append_nil]
    rfl
  | cons c cs ih =>
    intro done hsplit
    have hch : List.Pairwise (fun a b => a.id ≠ b.id) (done ++ c :: cs) := by
      rw [← hsplit]
      exact List.Pairwise.sublist (List.filter_sublist store) hwf.1
    have hmemf : ∀ a ∈ done ++ c :: cs, a ∈ store ∧ a.parent = some X.id := by
      intro a ha
      rw [← hsplit] at ha
      obtain ⟨h1, h2⟩ := List.mem_filter.mp ha
      exact ⟨h1, of_decide_eq_true h2⟩
    have hcm : c ∈ store ∧ c.parent = some X.id :=
      hmemf c (List.mem_append_right _ (List.mem_cons_self c cs))
    have hdone : ∀ a ∈ done, a ∈ store ∧ a.parent = some X.id :=
      fun a ha => hmemf a (List.mem_append_left _ ha)
    have hcnew : ∀ a ∈ done, a.id ≠ c.id :=
      fun a ha => (List.pairwise_append.mp hch).2.2 a ha c (List.mem_cons_self c cs)
    have hdc : done ++ c :: cs = (done ++ [c]) ++ cs := by
      rw [List.append_assoc, List.singleton_append]
    rw [List.foldlM_cons,
      reparent_step sep store hwf hdf X hX Xp hXp gpp hgp done hdone c hcm.1 hcm.2 hcnew,
      hdc]
    exact ih (done ++ [c]) (by rw [hsplit, hdc])

/-- Claim C3 (amended): over a well-formed collection whose paths avoid the
regex wildcard `'.'`, removing a node X under REPARENT mode removes only
X's record; every former immediate child of X ends up with `parent =
X.parent` and a path composed from the new parent's persisted path (or its
own id for a new root), and every record of a child's former subtree has
its path rewritten with the child's new path in place of the old prefix. -/
theorem claim3_amended (sep : Char) (store : Store) (X : Rec) (Xp : List Char)
    (store' : Store)
    (hwf : WFStore sep store) (hdf : pathsDotFree store)
    (hX : X ∈ store) (hXp : X.path = some Xp)
    (hrem : applyRemove sep .REPARENT store X = .ok store') :
    (lookup store' X.id = none ∧
      ∀ r ∈ store, r.id ≠ X.id → ∃ r', lookup store' r.id = some r') ∧
    (∀ c ∈ store, c.parent = some X.id →
      ∃ c', lookup store' c.id = some c' ∧ c'.parent = X.parent ∧
        (X.parent = none → c'.path = some c.id) ∧
        (∀ g, X.parent = some g →
          ∃ g', lookup store' g = some g' ∧
            ∃ gp, g'.path = some gp ∧ c'.path = some (gp ++ sep :: c.id))) ∧
    (∀ c ∈ store, c.parent = some X.id →
      ∀ D ∈ store, ∀ rest, D.path = some ((Xp ++ sep :: c.id) ++ sep :: rest) →
        ∃ c' cp, lookup store' c.id = some c' ∧ c'.path = some cp ∧
          ∃ D', lookup store' D.id = some D' ∧ D'.id = D.id ∧
            D'.parent = D.parent ∧ D'.path = some (cp ++ sep :: rest)) := by
  obtain ⟨gpp, hgp, hgX⟩ :
      ∃ gpp, ((X.parent = none ∧ gpp = none) ∨
        ∃ g, X.parent = some g ∧ ∃ grec, grec ∈ store ∧ grec.id = g ∧ grec.path = gpp) ∧
      ((X.parent = none → gpp = none ∧ Xp = X.id) ∧
       (∀ g, X.parent = some g → ∃ grec qp, grec ∈ store ∧ grec.id = g ∧
          grec.path = some qp ∧ gpp = some qp ∧ Xp = qp ++ sep :: X.id)) := by
    cases hXpar : X.parent with
    | none =>
      have hcm := hwf.2.2 X hX
      simp only [hXpar] at hcm
      rw [hXp] at hcm
      injection hcm with hXid
      exact ⟨none, Or.inl ⟨rfl, rfl⟩,
        ⟨fun _ => ⟨rfl, hXid⟩, fun g hg => Option.noConfusion hg⟩⟩
    | some g0 =>
      have hcm := hwf.2.2 X hX
      simp only [hXpar] at hcm
      obtain ⟨q, hqS, hqid, qp, hqp, hXcomp⟩ := hcm
      rw [hXp] at hXcomp
      injection hXcomp with hXpf
      refine ⟨some qp, Or.inr ⟨g0, rfl, q, hqS, hqid, hqp⟩,
        ⟨fun hn => Option.noConfusion hn, fun g hg => ?_⟩⟩
      injection hg with hg0
      exact ⟨q, qp, hqS, hg0 ▸ hqid, hqp, rfl, hXpf⟩
  have hXpne : Xp ≠ [] := by
    cases hXpar : X.parent with
    | none =>
      obtain ⟨-, hXid⟩ := hgX.1 hXpar
      rw [hXid]
      exact (hwf.2.1 X hX).1
    | some g =>
      obtain ⟨grec, qp, -, -, -, -, hXpf⟩ := hgX.2 g hXpar
      rw [hXpf]
      simp
  have htru : jsTruthyPath X.path = true := by
    simp [jsTruthyPath, hXp, hXpne]
  rw [applyRemove, htru] at hrem
  simp only [Bool.not_true, Bool.false_eq_true, if_false] at hrem
  have hfold := reparent_fold sep store hwf hdf X hX Xp hXp gpp hgp
    (store.filter (fun r => r.parent = some X.id)) [] rfl
  have hnil : store.map (rpExpect sep Xp X.parent gpp []) = store := by
    rw [List.map_congr_left (fun r _ => rpExpect_nil sep Xp X.parent gpp r)]
    simp
  rw [hnil, List.nil_append] at hfold
  rw [hfold] at hrem
  simp only [Except.map, Except.ok.injEq] at hrem
  subst hrem
  have hchild : ∀ a ∈ store.filter (fun r => r.parent = some X.id),
      a ∈ store ∧ a.parent = some X.id := by
    intro a ha
    obtain ⟨h1, h2⟩ := List.mem_filter.mp ha
    exact ⟨h1, of_decide_eq_true h2⟩
  have hchnd : (store.filter (fun r => r.parent = some X.id)).Pairwise
      (fun a b => a.id ≠ b.id) :=
    List.Pairwise.sublist (List.filter_sublist store) hwf.1
  have hndM : (store.map
      (rpExpect sep Xp X.parent gpp (store.filter (fun r => r.parent = some X.id)))).Pairwise
      (fun a b => a.id ≠ b.id) := by
    rw [List.pairwise_map]
    refine hwf.1.imp ?_
    intro a b hab
    rw [rpExpect_id, rpExpect_id]
    exact hab
  have hsurv : ∀ r ∈ store, r.id ≠ X.id →
      lookup
        (removeById
          (store.map
            (rpExpect sep Xp X.parent gpp (store.filter (fun r => r.parent = some X.id))))
          X.id) r.id =
      some (rpExpect sep Xp X.parent gpp (store.filter (fun r => r.parent = some X.id)) r) := by
    intro r hr hne
    have hid := rpExpect_id sep Xp X.parent gpp
      (store.filter (fun r => r.parent = some X.id)) r
    rw [removeById]
    have hl := @lookup_filter_mem _ hndM _ (List.mem_map_of_mem _ hr)
      (fun r' => ¬ r'.id = X.id) (by simp [hid, hne])
    rw [hid] at hl
    exact hl
  refine ⟨⟨?_, ?_⟩, ?_, ?_⟩
  · rw [removeById]
    refine lookup_filter_none fun y hy hyi => ?_
    simp [hyi]
  · intro r hr hne
    exact ⟨_, hsurv r hr hne⟩
  · intro c hcS hcP
    have hcch : c ∈ store.filter (fun r => r.parent = some X.id) :=
      List.mem_filter.mpr ⟨hcS, by simp [hcP]⟩
    have hlc : lookup (store.filter (fun r => r.parent = some X.id)) c.id = some c :=
      lookup_of_mem_nodup hchnd hcch
    have hEc : rpExpect sep Xp X.parent gpp
        (store.filter (fun r => r.parent = some X.id)) c =
        ⟨c.id, X.parent, some (cNewPath sep gpp c.id)⟩ := by
      simp only [rpExpect, hlc]
    have hcne : c.id ≠ X.id := by
      intro h
      have hceq : c = X := mem_nodup_id_eq hwf.1 hcS hX h
      exact no_self_parent hwf hX (hceq ▸ hcP)
    refine ⟨_, hsurv c hcS hcne, ?_, ?_, ?_⟩
    · rw [hEc]
    · intro hnone
      obtain ⟨hgppn, -⟩ := hgX.1 hnone
      rw [hEc, hgppn]
      rfl
    · intro g hg
      obtain ⟨grec, qp, hgS, hgid, hqp, hgg, hXpf⟩ := hgX.2 g hg
      have hgne : grec.id ≠ X.id := by
        intro h
        exact no_self_parent hwf hX (by rw [hg, ← hgid, h])
      have hEg : rpExpect sep Xp X.parent gpp
          (store.filter (fun r => r.parent = some X.id)) grec = grec :=
        grec_untouched hwf hX hXp hgS hqp hXpf X.parent gpp hchild
      have hlg := hsurv grec hgS hgne
      rw [hEg, hgid] at hlg
      refine ⟨grec, hlg, qp, hqp, ?_⟩
      rw [hEc, hgg]
      rfl
  · intro c hcS hcP D hDS rest hDp
    have hcch : c ∈ store.filter (fun r => r.parent = some X.id) :=
      List.mem_filter.mpr ⟨hcS, by simp [hcP]⟩
    have hlc : lookup (store.filter (fun r => r.parent = some X.id)) c.id = some c :=
      lookup_of_mem_nodup hchnd hcch
    have hEc : rpExpect sep Xp X.parent gpp
        (store.filter (fun r => r.parent = some X.id)) c =
        ⟨c.id, X.parent, some (cNewPath sep gpp c.id)⟩ := by
      simp only [rpExpect, hlc]
    have hcne : c.id ≠ X.id := by
      intro h
      have hceq : c = X := mem_nodup_id_eq hwf.1 hcS hX h
      exact no_self_parent hwf hX (hceq ▸ hcP)
    have hDne : D.id ≠ X.id := by
      intro h
      have hDX : D = X := mem_nodup_id_eq hwf.1 hDS hX h
      rw [hDX, hXp] at hDp
      injection hDp with h'
      have hlen := congrArg List.length h'
      simp at hlen
    have hlD : lookup (store.filter (fun r => r.parent = some X.id)) D.id = none := by
      rw [lookup, List.find?_eq_none]
      intro a ha
      simp only [decide_eq_true_eq]
      intro haD
      have haS := hchild a ha
      have haDeq : a = D := mem_nodup_id_eq hwf.1 haS.1 hDS haD
      have hDP : D.parent = some X.id := haDeq ▸ haS.2
      have hcomp := child_comp hwf hX hXp hDS hDP
      rw [hDp] at hcomp
      injection hcomp with h'
      have h'' : Xp ++ sep :: (c.id ++ sep :: rest) = Xp ++ sep :: D.id := by
        rw [← h']
        simp
      have h3 := List.append_cancel_left h''
      injection h3 with h4 h5
      have hmem : sep ∈ D.id := by
        rw [← h5]
        simp
      exact (hwf.2.1 D hDS).2 hmem
    have hhitc : anchorHitB sep Xp D c = true := anchorHitB_of hDp rfl
    have hfD : List.find? (anchorHitB sep Xp D)
        (store.filter (fun r => r.parent = some X.id)) = some c := by
      cases hfd : List.find? (anchorHitB sep Xp D)
          (store.filter (fun r => r.parent = some X.id)) with
      | none =>
        exfalso
        rw [List.find?_eq_none] at hfd
        exact hfd c hcch hhitc
      | some a =>
        have haS := hchild a (List.mem_of_find?_eq_some hfd)
        obtain ⟨p, t, hp, hpt⟩ := anchorHitB_true (List.find?_some hfd)
        rw [hDp] at hp
        injection hp with hp'
        have heq := hp'.trans hpt
        simp only [List.append_assoc, List.cons_append] at heq
        have h3 := List.append_cancel_left heq
        injection h3 with h4 h5
        have hpref : (a.id ++ [sep]) <+: c.id ++ sep :: rest := by
          rw [h5]
          exact ⟨t, by simp⟩
        have haid : a.id = c.id :=
          sep_free_pref (hwf.2.1 a haS.1).2 (hwf.2.1 c hcS).2 hpref
        have hac : a = c := mem_nodup_id_eq hwf.1 haS.1 hcS haid
        rw [hac]
    have hED : rpExpect sep Xp X.parent gpp
        (store.filter (fun r => r.parent = some X.id)) D =
        { D with path := some (cNewPath sep gpp c.id ++ sep :: rest) } := by
      simp only [rpExpect, hlD, hfD, hDp]
      rw [List.drop_left' rfl]
    have hlcF := hsurv c hcS hcne
    rw [hEc] at hlcF
    have hlDF := hsurv D hDS hDne
    rw [hED] at hlDF
    exact ⟨_, cNewPath sep gpp c.id, hlcF, rfl, _, hlDF, rfl, rfl, rfl⟩

/-- Claim C3 counterexample (separator `'#'`): removing node `X` (path
`"G#X"`) under REPARENT mode re-saves its children `"a."` and `"ab"`.  The
cascade of the first re-save interpolates the old child path `"G#X#a."`
into the `$regex` unescaped, so its wildcard `'.'` also matches
`"G#X#ab#d"` — the record `"d"` of the sibling subtree is rewritten to
`"G#a.#d"` instead of its correspondingly rewritten path `"G#ab#d"`, even
though `"d"` lay in child `"ab"`'s subtree. -/
theorem claim3_counterexample :
    applyRemove '#' .REPARENT
        [⟨"G".toList, none, some "G".toList⟩,
         ⟨"X".toList, some "G".toList, some "G#X".toList⟩,
         ⟨"a.".toList, some "X".toList, some "G#X#a.".toList⟩,
         ⟨"ab".toList, some "X".toList, some "G#X#ab".toList⟩,
         ⟨"d".toList, some "ab".toList, some "G#X#ab#d".toList⟩]
        ⟨"X".toList, some "G".toList, some "G#X".toList⟩ =
      .ok
        [⟨"G".toList, none, some "G".toList⟩,
         ⟨"a.".toList, some "G".toList, some "G#a.".toList⟩,
         ⟨"ab".toList, some "G".toList, some "G#ab".toList⟩,
         ⟨"d".toList, some "ab".toList, some "G#a.#d".toList⟩] ∧
    ("G#X#ab".toList ++ ['#']).isPrefixOf "G#X#ab#d".toList = true ∧
    "G#a.#d".toList ≠ "G#ab".toList ++ '#' :: "d".toList :=
  ⟨rfl, by decide, by decide⟩

/-- Witness for C3 (amended): removing `sweden` (path `"eu#se"`) under
REPARENT mode in a dot-free three-record collection removes only `sweden`;
`stockholm` is reparented under `europe` with path `"eu#sthlm"`. -/
theorem claim3_amended_witness :
    (lookup
        ([⟨"eu".toList, none, some "eu".toList⟩,
          ⟨"sthlm".toList, some "eu".toList, some "eu#sthlm".toList⟩] : Store)
        "se".toList = none ∧
      ∀ r ∈ ([⟨"eu".toList, none, some "eu".toList⟩,
          ⟨"se".toList, some "eu".toList, some "eu#se".toList⟩,
          ⟨"sthlm".toList, some "se".toList, some "eu#se#sthlm".toList⟩] : Store),
        r.id ≠ "se".toList → ∃ r', lookup
          ([⟨"eu".toList, none, some "eu".toList⟩,
            ⟨"sthlm".toList, some "eu".toList, some "eu#sthlm".toList⟩] : Store)
          r.id = some r') ∧
    (∀ c ∈ ([⟨"eu".toList, none, some "eu".toList⟩,
          ⟨"se".toList, some "eu".toList, some "eu#se".toList⟩,
          ⟨"sthlm".toList, some "se".toList, some "eu#se#sthlm".toList⟩] : Store),
      c.parent = some "se".toList →
      ∃ c', lookup
          ([⟨"eu".toList, none, some "eu".toList⟩,
            ⟨"sthlm".toList, some "eu".toList, some "eu#sthlm".toList⟩] : Store)
          c.id = some c' ∧
        c'.parent = some "eu".toList ∧
        ((some "eu".toList : Option (List Char)) = none → c'.path = some c.id) ∧
        (∀ g, (some "eu".toList : Option (List Char)) = some g →
          ∃ g', lookup
              ([⟨"eu".toList, none, some "eu".toList⟩,
                ⟨"sthlm".toList, some "eu".toList, some "eu#sthlm".toList⟩] : Store)
              g = some g' ∧
            ∃ gp, g'.path = some gp ∧ c'.path = some (gp ++ '#' :: c.id))) ∧
    (∀ c ∈ ([⟨"eu".toList, none, some "eu".toList⟩,
          ⟨"se".toList, some "eu".toList, some "eu#se".toList⟩,
          ⟨"sthlm".toList, some "se".toList, some "eu#se#sthlm".toList⟩] : Store),
      c.parent = some "se".toList →
      ∀ D ∈ ([⟨"eu".toList, none, some "eu".toList⟩,
          ⟨"se".toList, some "eu".toList, some "eu#se".toList⟩,
          ⟨"sthlm".toList, some "se".toList, some "eu#se#sthlm".toList⟩] : Store),
        ∀ rest, D.path = some (("eu#se".toList ++ '#' :: c.id) ++ '#' :: rest) →
        ∃ c' cp, lookup
            ([⟨"eu".toList, none, some "eu".toList⟩,
              ⟨"sthlm".toList, some "eu".toList, some "eu#sthlm".toList⟩] : Store)
            c.id = some c' ∧
          c'.path = some cp ∧
          ∃ D', lookup
              ([⟨"eu".toList, none, some "eu".toList⟩,
                ⟨"sthlm".toList, some "eu".toList, some "eu#sthlm".toList⟩] : Store)
              D.id = some D' ∧
            D'.id = D.id ∧ D'.parent = D.parent ∧ D'.path = some (cp ++ '#' :: rest)) :=
  claim3_amended '#'
    [⟨"eu".toList, none, some "eu".toList⟩,
     ⟨"se".toList, some "eu".toList, some "eu#se".toList⟩,
     ⟨"sthlm".toList, some "se".toList, some "eu#se#sthlm".toList⟩]
    ⟨"se".toList, some "eu".toList, some "eu#se".toList⟩
    "eu#se".toList
    [⟨"eu".toList, none, some "eu".toList⟩,
     ⟨"sthlm".toList, some "eu".toList, some "eu#sthlm".toList⟩]
    ⟨by decide, by decide, by
      intro r hr
      simp only [List.mem_cons, List.not_mem_nil, or_false] at hr
      rcases hr with rfl | rfl | rfl
      · exact rfl
      · exact ⟨⟨"eu".toList, none, some "eu".toList⟩, by decide, rfl, "eu".toList, rfl,
          by decide⟩
      · exact ⟨⟨"se".toList, some "eu".toList, some "eu#se".toList⟩, by decide, rfl,
          "eu#se".toList, rfl, by decide⟩⟩
    (by decide)
    (by decide)
    rfl
    rfl
